import Mathlib

/-!
Verification of the normalization-and-matching core of `data_processing.py`.

This file gives a shallow embedding of the detection core of the repository
(`src/data_processing.py`) and proves or refutes the specification claims about it.

Texts are represented as `List Char` (one entry per Python character).  Python's
`re` module is modelled by explicit match-span lists: a compiled pattern becomes a
function `List Char → List (Nat × Nat)` returning the spans that `finditer` would
yield.  Literal patterns (including the escaped-literal fallbacks the source
installs on `re.error`) are implemented concretely; the behaviour of arbitrary
compiled pattern strings is an explicit parameter (`ReEngine`) constrained, where
a proof needs it, by the well-formedness facts `finditer` guarantees.
-/

set_option maxRecDepth 8192

namespace Yakkiho

/-- Character list of a string literal (Python strings are sequences of characters). -/
def chars (s : String) : List Char := s.data

/-- Python `str.isspace` on a single character: the Unicode whitespace and
bidirectional-separator characters recognised by CPython. -/
def pyIsSpace (c : Char) : Bool :=
  let n := c.toNat
  decide ((0x9 ≤ n ∧ n ≤ 0xD) ∨ (0x1C ≤ n ∧ n ≤ 0x20) ∨ n = 0x85 ∨ n = 0xA0 ∨
    n = 0x1680 ∨ (0x2000 ≤ n ∧ n ≤ 0x200A) ∨ n = 0x2028 ∨ n = 0x2029 ∨
    n = 0x202F ∨ n = 0x205F ∨ n = 0x3000)

/-- Table `FW_DIGITS = str.maketrans("０１２３４５６７８９", "0123456789")`. -/
def FW_DIGITS : List (Char × Char) :=
  [('０', '0'), ('１', '1'), ('２', '2'), ('３', '3'), ('４', '4'),
   ('５', '5'), ('６', '6'), ('７', '7'), ('８', '8'), ('９', '9')]

/-- Table `FW_UPPER = str.maketrans("ＡＢ…Ｚ", "AB…Z")`. -/
def FW_UPPER : List (Char × Char) :=
  [('Ａ', 'A'), ('Ｂ', 'B'), ('Ｃ', 'C'), ('Ｄ', 'D'), ('Ｅ', 'E'), ('Ｆ', 'F'),
   ('Ｇ', 'G'), ('Ｈ', 'H'), ('Ｉ', 'I'), ('Ｊ', 'J'), ('Ｋ', 'K'), ('Ｌ', 'L'),
   ('Ｍ', 'M'), ('Ｎ', 'N'), ('Ｏ', 'O'), ('Ｐ', 'P'), ('Ｑ', 'Q'), ('Ｒ', 'R'),
   ('Ｓ', 'S'), ('Ｔ', 'T'), ('Ｕ', 'U'), ('Ｖ', 'V'), ('Ｗ', 'W'), ('Ｘ', 'X'),
   ('Ｙ', 'Y'), ('Ｚ', 'Z')]

/-- Table `FW_LOWER = str.maketrans("ａｂ…ｚ", "ab…z")`. -/
def FW_LOWER : List (Char × Char) :=
  [('ａ', 'a'), ('ｂ', 'b'), ('ｃ', 'c'), ('ｄ', 'd'), ('ｅ', 'e'), ('ｆ', 'f'),
   ('ｇ', 'g'), ('ｈ', 'h'), ('ｉ', 'i'), ('ｊ', 'j'), ('ｋ', 'k'), ('ｌ', 'l'),
   ('ｍ', 'm'), ('ｎ', 'n'), ('ｏ', 'o'), ('ｐ', 'p'), ('ｑ', 'q'), ('ｒ', 'r'),
   ('ｓ', 's'), ('ｔ', 't'), ('ｕ', 'u'), ('ｖ', 'v'), ('ｗ', 'w'), ('ｘ', 'x'),
   ('ｙ', 'y'), ('ｚ', 'z')]

/-- Table `FW_PUNCT`: full-width punctuation and full-width space to half-width. -/
def FW_PUNCT : List (Char × Char) :=
  [('．', '.'), ('，', ','), ('％', '%'), ('　', ' ')]

/-- One `str.translate` step: look the character up in the table, else keep it. -/
def applyTr (tbl : List (Char × Char)) (c : Char) : Char :=
  match tbl.find? (fun p => p.1 == c) with
  | some p => p.2
  | none => c

/-- The chained translations
`ch.translate(FW_DIGITS).translate(FW_UPPER).translate(FW_LOWER).translate(FW_PUNCT)`. -/
def translateAll (c : Char) : Char :=
  applyTr FW_PUNCT (applyTr FW_LOWER (applyTr FW_UPPER (applyTr FW_DIGITS c)))

/-- Python `str.isascii` on one character (code point below 128). -/
def charIsAscii (c : Char) : Bool := decide (c.toNat ≤ 0x7F)

/-- ASCII lower-casing of one character (`str.lower` restricted to ASCII input,
which is how the source guards it): `A`–`Z` shift down by 32, all else unchanged. -/
def asciiLower (c : Char) : Char :=
  if 0x41 ≤ c.toNat ∧ c.toNat ≤ 0x5A then Char.ofNat (c.toNat + 32) else c

/-- Step `if ch.isascii(): ch = ch.lower()` on a single character. -/
def lowerIfAscii (c : Char) : Char :=
  if charIsAscii c then asciiLower c else c

/-- Models `unicodedata.normalize("NFC", ·)` applied to a single character.
NFC is the identity on every character appearing in this development except
U+0958 (DEVANAGARI LETTER QA): it is a composition exclusion, so its canonical
decomposition U+0915 U+093C is not recomposed and NFC of the single character is
the two-character string; that entry is recorded explicitly. -/
def nfcChar (c : Char) : List Char :=
  if c = Char.ofNat 0x958 then [Char.ofNat 0x915, Char.ofNat 0x93C] else [c]

/-- Function `_basic_normalize_char`: NFC, then the four full-width foldings, then
lower-casing when the (whole, possibly multi-character) result is ASCII. -/
def _basic_normalize_char (c : Char) : List Char :=
  let s := (nfcChar c).map translateAll
  if s.all charIsAscii then s.map asciiLower else s

/-- Python lexicographic `<=` on strings (by code point). -/
def lexLe : List Char → List Char → Bool
  | [], _ => true
  | _ :: _, [] => false
  | a :: as, b :: bs =>
    if a.toNat < b.toNat then true
    else if b.toNat < a.toNat then false
    else lexLe as bs

/-- The katakana-to-hiragana step of `normalize_text_for_matching`:
`if 'ァ' <= ch_norm <= 'ン': ch_norm = chr(ord(ch_norm) - 0x60)`.
The comparison is Python string comparison on the (possibly multi-character)
normalized string; `ord` of a multi-character string would raise `TypeError`,
which does not occur for the character set modelled here. -/
def katakanaFoldStr (s : List Char) : List Char :=
  if lexLe (chars "ァ") s && lexLe s (chars "ン") then
    match s with
    | [c] => [Char.ofNat (c.toNat - 0x60)]
    | _ => s
  else s

/-- Python `str.isspace` (true iff non-empty and every character is whitespace). -/
def strIsSpace (s : List Char) : Bool := !s.isEmpty && s.all pyIsSpace

/-- The per-character contribution of `normalize_text_for_matching` to the
normalized text: basic normalization, katakana folding, and dropping whitespace. -/
def charStep (c : Char) : List Char :=
  let s := katakanaFoldStr (_basic_normalize_char c)
  if strIsSpace s then [] else s

/-- The loop of `normalize_text_for_matching`, threading the original index. -/
def normAux : Nat → List Char → List Char × List Nat
  | _, [] => ([], [])
  | idx, c :: cs =>
    let rest := normAux (idx + 1) cs
    let s := katakanaFoldStr (_basic_normalize_char c)
    if strIsSpace s then rest else (s ++ rest.1, idx :: rest.2)

/-- Function `normalize_text_for_matching(text)`: normalized text and offset map. -/
def normalize_text_for_matching (text : List Char) : List Char × List Nat :=
  normAux 0 text

theorem normAux_fst (idx : Nat) (t : List Char) :
    (normAux idx t).1 = t.flatMap charStep := by
  induction t generalizing idx with
  | nil => rfl
  | cons c cs ih =>
    simp only [normAux, List.flatMap_cons, charStep]
    by_cases h : strIsSpace (katakanaFoldStr (_basic_normalize_char c))
    · simp [h, ih]
    · simp [h, ih]

theorem normAux_snd_ge (idx : Nat) (t : List Char) :
    ∀ j ∈ (normAux idx t).2, idx ≤ j := by
  induction t generalizing idx with
  | nil => intro j hj; simp [normAux] at hj
  | cons c cs ih =>
    intro j hj
    simp only [normAux] at hj
    by_cases h : strIsSpace (katakanaFoldStr (_basic_normalize_char c))
    · simp only [h, if_true] at hj
      exact le_trans (Nat.le_succ idx) (ih (idx + 1) j hj)
    · simp only [h, if_false] at hj
      rcases List.mem_cons.mp hj with rfl | hj
      · exact le_refl _
      · exact le_trans (Nat.le_succ idx) (ih (idx + 1) j hj)

theorem normAux_snd_pairwise (idx : Nat) (t : List Char) :
    (normAux idx t).2.Pairwise (· < ·) := by
  induction t generalizing idx with
  | nil => simp [normAux]
  | cons c cs ih =>
    simp only [normAux]
    by_cases h : strIsSpace (katakanaFoldStr (_basic_normalize_char c))
    · simp only [h, if_true]; exact ih (idx + 1)
    · simp only [h, if_false]
      refine List.Pairwise.cons ?_ (ih (idx + 1))
      intro j hj
      exact lt_of_lt_of_le (Nat.lt_succ_self idx) (normAux_snd_ge (idx + 1) cs j hj)

/-- The offset map of `normalize_text_for_matching` is strictly increasing. -/
theorem offsetMap_strict_mono (t : List Char) :
    (normalize_text_for_matching t).2.Pairwise (· < ·) :=
  normAux_snd_pairwise 0 t

theorem char_toNat_inj {a b : Char} (h : a.toNat = b.toNat) : a = b :=
  Char.ext (UInt32.ext h)

theorem toNat_958 : (Char.ofNat 0x958).toNat = 0x958 := by decide

theorem toNat_ofNat_of_lt {n : Nat} (h : n < 0xD800) : (Char.ofNat n).toNat = n := by
  have hv : n.isValidChar := Or.inl h
  simp only [Char.ofNat, dif_pos hv, Char.ofNatAux, Char.toNat]
  simp [UInt32.toNat]

/-- Facts about the four translation tables, checked by computation: every key is a
non-ASCII character (full-width, or the ideographic space U+3000) and every value
is ASCII. -/
theorem fwTables_facts :
    ∀ tbl ∈ [FW_DIGITS, FW_UPPER, FW_LOWER, FW_PUNCT], ∀ p ∈ tbl,
      charIsAscii p.1 = false ∧ charIsAscii p.2 = true ∧
      (p.1.toNat = 0x3000 ∨ 0xFF00 ≤ p.1.toNat) := by decide

theorem applyTr_ascii_or_fix (tbl : List (Char × Char))
    (hv : ∀ p ∈ tbl, charIsAscii p.2 = true) (c : Char) :
    charIsAscii (applyTr tbl c) = true ∨ applyTr tbl c = c := by
  unfold applyTr
  cases hf : tbl.find? (fun p => p.1 == c) with
  | none => exact Or.inr rfl
  | some p => exact Or.inl (hv p (List.mem_of_find?_eq_some hf))

theorem applyTr_fix_of_no_key (tbl : List (Char × Char)) (c : Char)
    (hk : ∀ p ∈ tbl, (p.1 == c) = false) : applyTr tbl c = c := by
  unfold applyTr
  cases hf : tbl.find? (fun p => p.1 == c) with
  | none => rfl
  | some p =>
    have h1 := List.find?_some hf
    rw [hk p (List.mem_of_find?_eq_some hf)] at h1
    cases h1

theorem applyTr_fix_of_ascii (tbl : List (Char × Char)) (c : Char)
    (hk : ∀ p ∈ tbl, charIsAscii p.1 = false) (hc : charIsAscii c = true) :
    applyTr tbl c = c := by
  apply applyTr_fix_of_no_key
  intro p hp
  cases hbeq : p.1 == c with
  | false => rfl
  | true =>
    exfalso
    have h2 := hk p hp
    rw [eq_of_beq hbeq, hc] at h2
    simp at h2

theorem applyTr_fix_of_hira (tbl : List (Char × Char)) (c : Char)
    (hk : ∀ p ∈ tbl, p.1.toNat = 0x3000 ∨ 0xFF00 ≤ p.1.toNat)
    (hc1 : 0x3041 ≤ c.toNat) (hc2 : c.toNat ≤ 0x3093) : applyTr tbl c = c := by
  apply applyTr_fix_of_no_key
  intro p hp
  cases hbeq : p.1 == c with
  | false => rfl
  | true =>
    exfalso
    have h3 := congrArg Char.toNat (eq_of_beq hbeq)
    rcases hk p hp with h | h <;> omega

theorem translateAll_fix_of_ascii {c : Char} (hc : charIsAscii c = true) :
    translateAll c = c := by
  unfold translateAll
  rw [applyTr_fix_of_ascii FW_DIGITS c (fun p hp => (fwTables_facts _ (by simp) p hp).1) hc,
      applyTr_fix_of_ascii FW_UPPER c (fun p hp => (fwTables_facts _ (by simp) p hp).1) hc,
      applyTr_fix_of_ascii FW_LOWER c (fun p hp => (fwTables_facts _ (by simp) p hp).1) hc,
      applyTr_fix_of_ascii FW_PUNCT c (fun p hp => (fwTables_facts _ (by simp) p hp).1) hc]

theorem translateAll_fix_of_hira {c : Char} (hc1 : 0x3041 ≤ c.toNat)
    (hc2 : c.toNat ≤ 0x3093) : translateAll c = c := by
  unfold translateAll
  rw [applyTr_fix_of_hira FW_DIGITS c (fun p hp => (fwTables_facts _ (by simp) p hp).2.2) hc1 hc2,
      applyTr_fix_of_hira FW_UPPER c (fun p hp => (fwTables_facts _ (by simp) p hp).2.2) hc1 hc2,
      applyTr_fix_of_hira FW_LOWER c (fun p hp => (fwTables_facts _ (by simp) p hp).2.2) hc1 hc2,
      applyTr_fix_of_hira FW_PUNCT c (fun p hp => (fwTables_facts _ (by simp) p hp).2.2) hc1 hc2]

theorem translateAll_cases (c : Char) :
    charIsAscii (translateAll c) = true ∨ translateAll c = c := by
  unfold translateAll
  rcases applyTr_ascii_or_fix FW_DIGITS (fun p hp => (fwTables_facts _ (by simp) p hp).2.1) c
    with h1 | h1
  · left
    rw [applyTr_fix_of_ascii FW_UPPER _ (fun p hp => (fwTables_facts _ (by simp) p hp).1) h1,
        applyTr_fix_of_ascii FW_LOWER _ (fun p hp => (fwTables_facts _ (by simp) p hp).1) h1,
        applyTr_fix_of_ascii FW_PUNCT _ (fun p hp => (fwTables_facts _ (by simp) p hp).1) h1]
    exact h1
  · rw [h1]
    rcases applyTr_ascii_or_fix FW_UPPER (fun p hp => (fwTables_facts _ (by simp) p hp).2.1) c
      with h2 | h2
    · left
      rw [applyTr_fix_of_ascii FW_LOWER _ (fun p hp => (fwTables_facts _ (by simp) p hp).1) h2,
          applyTr_fix_of_ascii FW_PUNCT _ (fun p hp => (fwTables_facts _ (by simp) p hp).1) h2]
      exact h2
    · rw [h2]
      rcases applyTr_ascii_or_fix FW_LOWER (fun p hp => (fwTables_facts _ (by simp) p hp).2.1) c
        with h3 | h3
      · left
        rw [applyTr_fix_of_ascii FW_PUNCT _ (fun p hp => (fwTables_facts _ (by simp) p hp).1) h3]
        exact h3
      · rw [h3]
        rcases applyTr_ascii_or_fix FW_PUNCT (fun p hp => (fwTables_facts _ (by simp) p hp).2.1) c
          with h4 | h4
        · exact Or.inl h4
        · exact Or.inr h4

theorem asciiLower_ascii {c : Char} (h : charIsAscii c = true) :
    charIsAscii (asciiLower c) = true := by
  unfold asciiLower
  unfold charIsAscii at h ⊢
  split
  · next hr =>
    rw [toNat_ofNat_of_lt (by omega)]
    simp at h ⊢
    omega
  · exact h

theorem asciiLower_idem (c : Char) : asciiLower (asciiLower c) = asciiLower c := by
  unfold asciiLower
  by_cases h : 0x41 ≤ c.toNat ∧ c.toNat ≤ 0x5A
  · rw [if_pos h, if_neg]
    rw [toNat_ofNat_of_lt (by omega)]
    omega
  · rw [if_neg h, if_neg h]

theorem basic_single {c : Char} (h : c ≠ Char.ofNat 0x958) :
    _basic_normalize_char c = [lowerIfAscii (translateAll c)] := by
  unfold _basic_normalize_char nfcChar lowerIfAscii
  rw [if_neg h]
  by_cases hx : charIsAscii (translateAll c) = true
  · simp [hx]
  · simp only [Bool.not_eq_true] at hx
    simp [hx]

theorem strIsSpace_single (d : Char) : strIsSpace [d] = pyIsSpace d := by
  simp [strIsSpace]

theorem kfold_single (x : Char) :
    katakanaFoldStr [x] =
      if 0x30A1 ≤ x.toNat ∧ x.toNat ≤ 0x30F3 then [Char.ofNat (x.toNat - 0x60)]
      else [x] := by
  have ha : ('ァ' : Char).toNat = 0x30A1 := by decide
  have hn : ('ン' : Char).toNat = 0x30F3 := by decide
  have hch : chars "ァ" = ['ァ'] := rfl
  have hcn : chars "ン" = ['ン'] := rfl
  unfold katakanaFoldStr
  rw [hch, hcn]
  by_cases h : 0x30A1 ≤ x.toNat ∧ x.toNat ≤ 0x30F3
  · rw [if_pos h]
    have h1 : lexLe ['ァ'] [x] = true := by
      simp only [lexLe, ha]
      rcases Nat.lt_trichotomy 0x30A1 x.toNat with hlt | heq | hgt
      · simp [hlt]
      · simp [heq.symm]
      · omega
    have h2 : lexLe [x] ['ン'] = true := by
      simp only [lexLe, hn]
      rcases Nat.lt_trichotomy x.toNat 0x30F3 with hlt | heq | hgt
      · simp [hlt]
      · simp [heq]
      · omega
    rw [if_pos (by rw [h1, h2]; rfl)]
  · rw [if_neg h]
    rw [if_neg]
    intro hcon
    rw [Bool.and_eq_true] at hcon
    rcases Nat.lt_or_ge x.toNat 0x30A1 with hlt | hge
    · have h1 : lexLe ['ァ'] [x] = false := by
        simp only [lexLe, ha]
        rw [if_neg (by omega), if_pos (by omega)]
      rw [h1] at hcon
      exact absurd hcon.1 (by simp)
    · have hgt : 0x30F3 < x.toNat := by omega
      have h2 : lexLe [x] ['ン'] = false := by
        simp only [lexLe, hn]
        rw [if_neg (by omega), if_pos (by omega)]
      rw [h2] at hcon
      exact absurd hcon.2 (by simp)

/-- Every character kept by `normalize_text_for_matching` is a fixed point of the
per-character normalization pipe: re-normalizing the produced text changes nothing. -/
theorem charStep_fixed (c : Char) : ∀ d ∈ charStep c, charStep d = [d] := by
  intro d hd
  by_cases hc : c = Char.ofNat 0x958
  · subst hc
    have hcs : charStep (Char.ofNat 0x958) = [Char.ofNat 0x915, Char.ofNat 0x93C] := by decide
    rw [hcs] at hd
    simp only [List.mem_cons, List.not_mem_nil, or_false] at hd
    rcases hd with rfl | rfl
    · decide
    · decide
  · rw [charStep, basic_single hc] at hd
    set c1 := lowerIfAscii (translateAll c) with hc1
    rw [kfold_single] at hd
    have hkey : (charIsAscii c1 = true ∧ asciiLower c1 = c1) ∨
        (c1 = c ∧ translateAll c = c ∧ charIsAscii c = false) := by
      rcases translateAll_cases c with h | h
      · left
        constructor
        · rw [hc1, lowerIfAscii, if_pos h]
          exact asciiLower_ascii h
        · rw [hc1, lowerIfAscii, if_pos h]
          exact asciiLower_idem _
      · by_cases hca : charIsAscii c = true
        · left
          constructor
          · rw [hc1, h, lowerIfAscii, if_pos hca]
            exact asciiLower_ascii hca
          · rw [hc1, h, lowerIfAscii, if_pos hca]
            exact asciiLower_idem _
        · right
          refine ⟨?_, h, by simpa using hca⟩
          rw [hc1, h, lowerIfAscii, if_neg hca]
    by_cases hr : 0x30A1 ≤ c1.toNat ∧ c1.toNat ≤ 0x30F3
    · -- the katakana branch: the kept character is the hiragana counterpart of `c1`
      rw [if_pos hr] at hd
      by_cases hspk : strIsSpace [Char.ofNat (c1.toNat - 0x60)] = true
      · rw [if_pos hspk] at hd
        cases hd
      rw [if_neg hspk] at hd
      simp only [List.mem_singleton] at hd
      subst hd
      have hdn : (Char.ofNat (c1.toNat - 0x60)).toNat = c1.toNat - 0x60 :=
        toNat_ofNat_of_lt (by omega)
      set d := Char.ofNat (c1.toNat - 0x60) with hdd
      have hd1 : 0x3041 ≤ d.toNat := by omega
      have hd2 : d.toNat ≤ 0x3093 := by omega
      have hdne : d ≠ Char.ofNat 0x958 := by
        intro hcon
        have h9 := congrArg Char.toNat hcon
        rw [toNat_958] at h9
        omega
      have hnasc : charIsAscii d = false := by
        unfold charIsAscii
        simp only [decide_eq_false_iff_not]
        omega
      have hbasic : _basic_normalize_char d = [d] := by
        rw [basic_single hdne, translateAll_fix_of_hira hd1 hd2, lowerIfAscii,
          if_neg (by rw [hnasc]; exact Bool.false_ne_true)]
      have hkf : katakanaFoldStr [d] = [d] := by
        rw [kfold_single, if_neg (by omega)]
      rw [charStep, hbasic, hkf, if_neg hspk]
    · -- no folding: the kept character is `c1` itself
      rw [if_neg hr] at hd
      by_cases hsp : strIsSpace [c1] = true
      · rw [if_pos hsp] at hd
        cases hd
      · rw [if_neg hsp] at hd
        simp only [List.mem_singleton] at hd
        subst hd
        have hdne : c1 ≠ Char.ofNat 0x958 := by
          rcases hkey with ⟨hascii, _⟩ | ⟨hcc, _, _⟩
          · intro hcon
            have h9 := congrArg Char.toNat hcon
            rw [toNat_958] at h9
            unfold charIsAscii at hascii
            simp only [decide_eq_true_eq] at hascii
            omega
          · rw [hcc]; exact hc
        have htr : translateAll c1 = c1 := by
          rcases hkey with ⟨hascii, _⟩ | ⟨hcc, htc, _⟩
          · exact translateAll_fix_of_ascii hascii
          · rw [hcc]; exact htc
        have hlw : lowerIfAscii c1 = c1 := by
          rcases hkey with ⟨hascii, hlower⟩ | ⟨hcc, _, hnascii⟩
          · rw [lowerIfAscii, if_pos hascii]; exact hlower
          · rw [lowerIfAscii, if_neg]
            intro hcon
            rw [hcc, hnascii] at hcon
            exact Bool.false_ne_true hcon
        have hbasic : _basic_normalize_char c1 = [c1] := by
          rw [basic_single hdne, htr, hlw]
        have hkf : katakanaFoldStr [c1] = [c1] := by
          rw [kfold_single, if_neg hr]
        rw [charStep, hbasic, hkf, if_neg hsp]

theorem flatMap_fixed {g : Char → List Char} (l : List Char)
    (h : ∀ d ∈ l, g d = [d]) : l.flatMap g = l := by
  induction l with
  | nil => rfl
  | cons c cs ih =>
    rw [List.flatMap_cons, h c (List.mem_cons_self c cs),
      ih (fun d hd => h d (List.mem_cons_of_mem c hd))]
    rfl

/-- Re-normalizing a normalized text changes the text component no further. -/
theorem normalize_for_matching_fst_fixed (t : List Char) :
    (normalize_text_for_matching (normalize_text_for_matching t).1).1 =
      (normalize_text_for_matching t).1 := by
  rw [normalize_text_for_matching, normalize_text_for_matching, normAux_fst, normAux_fst]
  apply flatMap_fixed
  intro d hd
  rcases List.mem_flatMap.mp hd with ⟨c, _, hdc⟩
  exact charStep_fixed c d hdc


/-! ## Claim C3 and C8 theorems, and the placeholder expander (C10) -/

/-- C3 (code_bug evidence): on input U+0958 the source's own documented invariant
`len(normalized_text) == len(mapping)` fails: per-character NFC turns the single
character into two characters while only one offset-map entry is recorded.  The
offset map itself is still `[0]`. -/
theorem C3_offset_map_length_mismatch :
    (normalize_text_for_matching [Char.ofNat 0x958]).1.length = 2 ∧
      (normalize_text_for_matching [Char.ofNat 0x958]).2 = [0] := by decide

/-- C8 counterexample: `normalize_text_for_matching` applied to the text component
of its own output does not reproduce the full (text, offsetMap) result: on
`"a b"` the first pass returns map `[0, 2]` while the second returns `[0, 1]`. -/
theorem C8_counterexample :
    normalize_text_for_matching ((normalize_text_for_matching (chars "a b")).1) ≠
      normalize_text_for_matching (chars "a b") := by decide

/-- C8 (amended): the *text component* of matching normalization is a fixed point:
re-normalizing the normalized text yields the same text (the offset map of the
second pass is the identity map, not the original one). -/
theorem C8_amended_text_fixed_point (t : List Char) :
    (normalize_text_for_matching (normalize_text_for_matching t).1).1 =
      (normalize_text_for_matching t).1 :=
  normalize_for_matching_fst_fixed t

/-- The non-overlapping, left-to-right global replacement of Python
`str.replace` for a non-empty pattern; the fuel argument (instantiated with the
text length, which each step strictly decreases) makes the recursion structural
so that the function evaluates by reduction. -/
def pyReplaceGo (pat rep : List Char) : Nat → List Char → List Char
  | 0, t => t
  | _ + 1, [] => []
  | fuel + 1, c :: cs =>
    if pat.isPrefixOf (c :: cs) then
      rep ++ pyReplaceGo pat rep fuel (cs.drop (pat.length - 1))
    else c :: pyReplaceGo pat rep fuel cs

/-- Python `t.replace(pat, rep)` (all occurrences; an empty pattern inserts the
replacement before every character and at the end, as CPython does). -/
def pyReplace (t pat rep : List Char) : List Char :=
  if pat.isEmpty then rep ++ t.flatMap (fun c => c :: rep)
  else pyReplaceGo pat rep t.length t

/-- Python `sub in t` (substring containment). -/
def strContains (t sub : List Char) : Bool :=
  (List.range (t.length + 1)).any (fun i => sub.isPrefixOf (t.drop i))

/-- The `f"{{{ph}}}"` token of a placeholder name. -/
def phToken (ph : List Char) : List Char := '{' :: (ph ++ ['}'])

/-- Function `expand_placeholders(text, placeholders)`: for each placeholder in table
order, replace every occurrence of its token in every partial result by every
substitution value; items without the token pass through unchanged. -/
def expand_placeholders (text : List Char)
    (placeholders : List (List Char × List (List Char))) : List (List Char) :=
  placeholders.foldl
    (fun results p =>
      results.foldl
        (fun nr item =>
          if strContains item (phToken p.1) then
            nr ++ p.2.map (fun v => pyReplace item (phToken p.1) v)
          else nr ++ [item])
        [])
    [text]

/-- C10 (amended): tokens of names absent from the table are never targeted: a
template containing no table key's token expands to the one-element list holding
the template unchanged.  (Tokens introduced by substitution values *are*
substituted when their name is a later key in table order; see the
counterexample.) -/
theorem C10_amended_no_token_unchanged (text : List Char)
    (pv : List (List Char × List (List Char)))
    (h : ∀ p ∈ pv, strContains text (phToken p.1) = false) :
    expand_placeholders text pv = [text] := by
  unfold expand_placeholders
  induction pv with
  | nil => rfl
  | cons p ps ih =>
    rw [List.foldl_cons]
    have hstep :
        (List.foldl
          (fun nr item =>
            if strContains item (phToken p.1) then
              nr ++ p.2.map (fun v => pyReplace item (phToken p.1) v)
            else nr ++ [item])
          [] [text]) = [text] := by
      rw [List.foldl_cons, List.foldl_nil, if_neg]
      · rfl
      · rw [h p (List.mem_cons_self p ps)]
        exact Bool.false_ne_true
    rw [hstep]
    exact ih (fun q hq => h q (List.mem_cons_of_mem p hq))

theorem C10_amended_no_token_unchanged_witness :
    (∀ p ∈ [(chars "X", [chars "A", chars "B"])],
        strContains (chars "そのままの文") (phToken p.1) = false) ∧
      expand_placeholders (chars "そのままの文") [(chars "X", [chars "A", chars "B"])] =
        [chars "そのままの文"] :=
  ⟨by decide, C10_amended_no_token_unchanged _ _ (by decide)⟩

/-- The placeholder table used in the C10 counterexample: the value substituted
for `{A}` introduces the token `{B}` of the later key `B`. -/
def pvC10 : List (List Char × List (List Char)) :=
  [(chars "A", [chars "{B}"]), (chars "B", [chars "x"])]

/-- C10 counterexample: a token introduced into a partial result by a
substitution value *is* itself substituted when its name is a later table key:
expanding `"{A}"` yields `["x"]`, and the introduced token `{B}` is gone rather
than remaining as literal text. -/
theorem C10_counterexample :
    expand_placeholders (chars "{A}") pvC10 = [chars "x"] ∧
      strContains (chars "x") (phToken (chars "B")) = false := by decide


/-! ## Match-span model of Python `re` -/

/-- The list of `(start, end)` spans that `pattern.finditer(text)` yields. -/
abbrev Matches := List (Nat × Nat)

/-- Well-formedness facts Python's `finditer`/`sub` guarantee for the match list
on a text of length `n`: every span is within bounds with start ≤ end, and each
match starts no earlier than the previous match's end. -/
def ValidMatches (n : Nat) (ms : Matches) : Prop :=
  (∀ m ∈ ms, m.1 ≤ m.2 ∧ m.2 ≤ n) ∧ List.Chain' (fun a b => a.2 ≤ b.1) ms

instance (n : Nat) (ms : Matches) : Decidable (ValidMatches n ms) := by
  unfold ValidMatches
  infer_instance

/-- Is `pat` (up to character folding `f`) present at index `i` of `t`? -/
def isOccAt (f : Char → Char) (pat t : List Char) (i : Nat) : Bool :=
  decide (i + pat.length ≤ t.length) && (((t.drop i).take pat.length).map f == pat.map f)

/-- Leftmost occurrence of the literal `pat` in `t` at an index ≥ `pos`. -/
def findFrom (f : Char → Char) (pat t : List Char) (pos : Nat) : Option Nat :=
  (List.range' pos (t.length + 1 - pos)).find? (fun i => isOccAt f pat t i)

/-- The scan loop of `finditer` for a literal pattern: repeatedly take the
leftmost occurrence and resume at its end (one past it for an empty match, as
CPython does).  The fuel (instantiated with `t.length + 1`, an upper bound on
the number of matches) makes the recursion structural. -/
def finditGo (f : Char → Char) (pat t : List Char) : Nat → Nat → Matches
  | 0, _ => []
  | fuel + 1, pos =>
    match findFrom f pat t pos with
    | none => []
    | some i =>
      (i, i + pat.length) ::
        finditGo f pat t fuel (if pat.length = 0 then i + 1 else i + pat.length)

/-- Spans of `re.compile(re.escape(pat), re.IGNORECASE).finditer(t)` — the match spans of
an escaped literal.  Case-insensitivity is modelled by folding characters
through `asciiLower`, which is exact for ASCII; full Unicode case folding of
non-ASCII cased letters is not modelled (no such character occurs here). -/
def pyLiteralFinditer (pat t : List Char) : Matches :=
  finditGo asciiLower pat t (t.length + 1) 0

theorem findFrom_some {f : Char → Char} {pat t : List Char} {pos i : Nat}
    (h : findFrom f pat t pos = some i) : pos ≤ i ∧ i + pat.length ≤ t.length := by
  unfold findFrom at h
  have hm := List.mem_of_find?_eq_some h
  have hp := List.find?_some h
  constructor
  · exact (List.mem_range'_1.mp hm).1
  · unfold isOccAt at hp
    rw [Bool.and_eq_true] at hp
    exact of_decide_eq_true hp.1

theorem finditGo_facts (f : Char → Char) (pat t : List Char) :
    ∀ fuel pos,
      (∀ m ∈ finditGo f pat t fuel pos,
        pos ≤ m.1 ∧ m.2 = m.1 + pat.length ∧ m.2 ≤ t.length) ∧
      List.Chain' (fun a b : Nat × Nat => a.2 ≤ b.1) (finditGo f pat t fuel pos) := by
  intro fuel
  induction fuel with
  | zero => intro pos; exact ⟨by simp [finditGo], by simp [finditGo]⟩
  | succ fuel ih =>
    intro pos
    rw [finditGo]
    cases hf : findFrom f pat t pos with
    | none => exact ⟨by simp, by simp⟩
    | some i =>
      have hi := findFrom_some hf
      have ihtail := ih (if pat.length = 0 then i + 1 else i + pat.length)
      have hposle : i + pat.length ≤ (if pat.length = 0 then i + 1 else i + pat.length) := by
        split <;> omega
      constructor
      · intro m hm
        rcases List.mem_cons.mp hm with rfl | hm
        · exact ⟨hi.1, rfl, hi.2⟩
        · have := (ihtail.1 m hm)
          exact ⟨by omega, this.2.1, this.2.2⟩
      · rw [List.chain'_cons']
        refine ⟨?_, ihtail.2⟩
        intro b hb
        have hbmem : b ∈ finditGo f pat t fuel (if pat.length = 0 then i + 1 else i + pat.length) := by
          cases hgo : finditGo f pat t fuel (if pat.length = 0 then i + 1 else i + pat.length) with
          | nil => rw [hgo] at hb; cases hb
          | cons x xs =>
            rw [hgo] at hb
            simp only [List.head?_cons, Option.mem_def, Option.some.injEq] at hb
            rw [hb]
            exact List.mem_cons_self b xs
        have := ihtail.1 b hbmem
        omega

/-- The spans of a literal search are valid match data. -/
theorem pyLiteralFinditer_valid (pat t : List Char) :
    ValidMatches t.length (pyLiteralFinditer pat t) := by
  have h := finditGo_facts asciiLower pat t (t.length + 1) 0
  exact ⟨fun m hm => ⟨by have := h.1 m hm; omega, (h.1 m hm).2.2⟩, h.2⟩

theorem findFrom_self (f : Char → Char) (pat : List Char) :
    findFrom f pat pat 0 = some 0 := by
  unfold findFrom
  have h1 : pat.length + 1 - 0 = pat.length + 1 := by omega
  rw [h1, List.range'_succ]
  apply List.find?_cons_of_pos
  unfold isOccAt
  rw [Bool.and_eq_true]
  constructor
  · exact decide_eq_true (by omega)
  · simp

theorem finditGo_succ (f : Char → Char) (pat t : List Char) (fuel pos : Nat) :
    finditGo f pat t (fuel + 1) pos =
      match findFrom f pat t pos with
      | none => []
      | some i =>
        (i, i + pat.length) ::
          finditGo f pat t fuel (if pat.length = 0 then i + 1 else i + pat.length) := rfl

/-- A literal pattern searched over the (normalized) phrase itself yields exactly
one match spanning the whole phrase. -/
theorem pyLiteralFinditer_self (pat : List Char) :
    pyLiteralFinditer pat pat = [(0, pat.length)] := by
  unfold pyLiteralFinditer
  cases pat with
  | nil => rfl
  | cons a ps =>
    have hnone : findFrom asciiLower (a :: ps) (a :: ps) (ps.length + 1) = none := by
      unfold findFrom
      apply List.find?_eq_none.mpr
      intro x hx
      have hx1 := (List.mem_range'_1.mp hx).1
      intro hp
      unfold isOccAt at hp
      rw [Bool.and_eq_true] at hp
      have hb := of_decide_eq_true hp.1
      simp only [List.length_cons] at hb
      omega
    show finditGo asciiLower (a :: ps) (a :: ps) (ps.length + 1 + 1) 0 = [(0, (a :: ps).length)]
    rw [finditGo_succ, findFrom_self]
    simp only [List.length_cons, Nat.zero_add, Nat.add_eq_zero, Nat.succ_ne_zero, and_false,
      if_false, hnone]
    rw [finditGo_succ, hnone]


/-! ## `compile_ng_word` (C6) -/

/-- The part of Python's `re` left abstract: whether `re.compile` succeeds on a
given pattern string (`compiles`, false models `re.error`), and the `finditer`
behaviour of a successfully compiled, `IGNORECASE`-flagged pattern string
(`run`). -/
structure ReEngine where
  compiles : List Char → Bool
  run : List Char → List Char → Matches

/-- Rewrite `re.sub(r'\\d\+', "[0-9０-９]+", ·)`: replace every literal `\d+` marker by a
character class accepting half-width and full-width digit runs. -/
def rewriteDigitToken (s : List Char) : List Char :=
  pyReplace s (chars "\\d+") (chars "[0-9０-９]+")

/-- Rewrite `re.sub(r'[ぁ-ん]', …)` via a per-character map: every hiragana
character (U+3041–U+3093) becomes a bracket alternation of itself and its
katakana counterpart. -/
def rewriteHiragana (s : List Char) : List Char :=
  s.flatMap (fun c =>
    if 0x3041 ≤ c.toNat ∧ c.toNat ≤ 0x3093 then
      ['[', c, Char.ofNat (c.toNat + 0x60), ']']
    else [c])

/-- Rewrite `re.sub(r'\s+', r'\\s*', ·)`: collapse each maximal whitespace run into the
three-character sequence `\s*`.  (The normalized phrase this is applied to
contains no whitespace, so the step is a no-op in the pipeline; it is modelled
for faithfulness.)  Fuel keeps the recursion structural. -/
def rewriteWsGo : Nat → List Char → List Char
  | 0, t => t
  | _ + 1, [] => []
  | fuel + 1, c :: cs =>
    if pyIsSpace c then chars "\\s*" ++ rewriteWsGo fuel (cs.dropWhile pyIsSpace)
    else c :: rewriteWsGo fuel cs

def rewriteWsRuns (s : List Char) : List Char := rewriteWsGo s.length s

/-- The `pattern_str` that `compile_ng_word` hands to `re.compile`. -/
def patternStrOf (phrase : List Char) : List Char :=
  rewriteWsRuns (rewriteHiragana (rewriteDigitToken (normalize_text_for_matching phrase).1))

/-- Function `compile_ng_word(phrase)`: normalize the phrase for matching, rewrite digit
markers, hiragana and whitespace runs, and compile case-insensitively; on
`re.error` fall back to the escaped literal of the normalized phrase.  The
returned matcher is the compiled pattern's `finditer`. -/
def compile_ng_word (E : ReEngine) (phrase : List Char) : List Char → Matches :=
  if E.compiles (patternStrOf phrase) then E.run (patternStrOf phrase)
  else fun t => pyLiteralFinditer (normalize_text_for_matching phrase).1 t

/-- C6: for every phrase whose rewritten pattern string fails to compile
(`re.error`), `compile_ng_word` returns the escaped-literal fallback on the
normalized phrase rather than raising, and that fallback matches the normalized
phrase itself exactly: searching it over the phrase yields the single match
spanning the whole phrase. -/
theorem C6_compile_fallback_matches_self (E : ReEngine) (phrase : List Char)
    (hfail : E.compiles (patternStrOf phrase) = false) :
    compile_ng_word E phrase (normalize_text_for_matching phrase).1 =
      [(0, (normalize_text_for_matching phrase).1.length)] := by
  unfold compile_ng_word
  rw [hfail]
  simp only [Bool.false_eq_true, if_false]
  exact pyLiteralFinditer_self _

/-- An engine on which every pattern string fails to compile; its `run` is never
consulted.  Used to witness the `re.error` path (for the phrase `"["` real
`re.compile` does raise `sre_constants.error: unterminated character set`). -/
def failEngine : ReEngine := ⟨fun _ => false, fun _ _ => []⟩

theorem C6_compile_fallback_matches_self_witness :
    failEngine.compiles (patternStrOf (chars "[")) = false ∧
      compile_ng_word failEngine (chars "[") (normalize_text_for_matching (chars "[")).1 =
        [(0, 1)] := by
  refine ⟨rfl, ?_⟩
  rw [C6_compile_fallback_matches_self failEngine (chars "[") rfl]
  decide


/-! ## Rule-record data model and `mask_safe_expressions` (C7) -/

/-- A JSON-ish field value: a flat string, a list of strings, or a per-regulatory-
tier object (`{"一般": …, "薬用": …}`). -/
inductive JsonVal where
  | flat (v : List Char)
  | many (v : List (List Char))
  | tiered (general medicated : JsonVal)
deriving DecidableEq

/-- One value of the `ng_words` dictionary (the `NGWordDetail` TypedDict).  The
compiled `pattern` entry is modelled as an optional matcher function; `none`
models a missing or non-`re.Pattern` entry, which makes the detector fall back
to `compile_ng_word(original)`.  Field names romanize the Japanese keys:
`shiteki` = 指摘事項, `kaizen` = 改善提案, `tekisei` = 適正表現例,
`kanren` = 関連法令等, `kinshi` = 共通禁止事項, `chuui` = 注意点,
`jogai` = 除外表現, `yoto` = 用途区分. -/
structure NGDetail where
  original : List Char
  pattern : Option (List Char → Matches)
  category : List Char
  shiteki : JsonVal
  kaizen : JsonVal
  tekisei : JsonVal
  kanren : List (List Char)
  kinshi : List (List Char)
  chuui : List (List Char)
  jogai : List (List Char)
  yoto : List (List Char)

/-- The mask filler character `□`. -/
def maskFiller : Char := '□'

/-- Substitution `pattern.sub(lambda m: "□" * len(m.group()), text)` over an explicit match
list: keep the text up to each match, replace the matched span by filler of the
same length, and continue after it. -/
def pySubGo (t : List Char) : Nat → Matches → List Char
  | last, [] => t.drop last
  | last, (s, e) :: ms =>
    (t.drop last).take (s - last) ++ List.replicate (e - s) maskFiller ++ pySubGo t e ms

def pySub (t : List Char) (ms : Matches) : List Char := pySubGo t 0 ms

/-- The matcher `mask_safe_expressions` uses for one exclusion expression:
`re.compile(expr, re.IGNORECASE)` when the expression compiles as a regex,
otherwise the escaped literal (`re.escape`). -/
def exprMatcher (E : ReEngine) (expr : List Char) : List Char → Matches :=
  if E.compiles expr then E.run expr else fun t => pyLiteralFinditer expr t

/-- The masking loop over the expanded exclusion expressions, threading the
`processed_exclusions` set and the progressively masked text. -/
def maskGo (E : ReEngine) : List (List Char) → List (List Char) → List Char → List Char
  | [], _, t => t
  | x :: xs, seen, t =>
    if x ∈ seen then maskGo E xs seen t
    else maskGo E xs (x :: seen) (pySub t (exprMatcher E x t))

/-- Function `mask_safe_expressions(ad_text, ng_words)`: placeholder-expand every rule's
exclusion expressions, deduplicate globally, and mask each one's matches with
`□` of equal length.  The placeholder table (`PLACEHOLDER_VALUES`, defined in
`config.py`, which is not part of the embedded sources) is passed explicitly. -/
def mask_safe_expressions (E : ReEngine) (pv : List (List Char × List (List Char)))
    (adText : List Char) (ngWords : List (List Char × NGDetail)) : List Char :=
  maskGo E
    (ngWords.flatMap (fun kv => kv.2.jogai.flatMap (fun se => expand_placeholders se pv)))
    [] adText

/-- Validity of a match list relative to the splice position `last` reached so
far: every span starts at or after `last`, is ordered, and ends within `n`. -/
def Threaded (n : Nat) : Nat → Matches → Prop
  | last, [] => last ≤ n
  | last, (s, e) :: ms => last ≤ s ∧ s ≤ e ∧ e ≤ n ∧ Threaded n e ms

theorem threaded_of_chain {n : Nat} :
    ∀ (ms : Matches) (last : Nat),
      (∀ m ∈ ms, m.1 ≤ m.2 ∧ m.2 ≤ n) →
      List.Chain' (fun a b : Nat × Nat => a.2 ≤ b.1) ms →
      last ≤ n → (∀ s e, ms.head? = some (s, e) → last ≤ s) →
      Threaded n last ms := by
  intro ms
  induction ms with
  | nil => intro last _ _ hn _; exact hn
  | cons m tail ih =>
    intro last hb hch hn hhead
    obtain ⟨s, e⟩ := m
    have hbm := hb (s, e) (List.mem_cons_self _ _)
    have hch2 := List.chain'_cons'.mp hch
    refine ⟨hhead s e rfl, hbm.1, hbm.2, ?_⟩
    apply ih e (fun q hq => hb q (List.mem_cons_of_mem _ hq)) hch2.2 hbm.2
    intro s2 e2 hh2
    exact hch2.1 (s2, e2) hh2

theorem threaded_of_valid {n : Nat} {ms : Matches} (h : ValidMatches n ms) :
    Threaded n 0 ms :=
  threaded_of_chain ms 0 h.1 h.2 (Nat.zero_le n) (fun _ _ _ => Nat.zero_le _)

theorem threaded_start_ge {n : Nat} :
    ∀ (ms : Matches) (last : Nat), Threaded n last ms → ∀ m ∈ ms, last ≤ m.1 := by
  intro ms
  induction ms with
  | nil => intro _ _ m hm; cases hm
  | cons q tail ih =>
    intro last h m hm
    obtain ⟨s, e⟩ := q
    obtain ⟨h1, h2, _, h4⟩ := h
    rcases List.mem_cons.mp hm with rfl | hm
    · exact h1
    · have := ih e h4 m hm
      omega

theorem pySubGo_length (t : List Char) :
    ∀ (ms : Matches) (last : Nat), Threaded t.length last ms →
      (pySubGo t last ms).length = t.length - last := by
  intro ms
  induction ms with
  | nil =>
    intro last _
    simp [pySubGo]
  | cons q tail ih =>
    intro last h
    obtain ⟨s, e⟩ := q
    obtain ⟨h1, h2, h3, h4⟩ := h
    have hlen := ih e h4
    simp only [pySubGo, List.length_append, List.length_take, List.length_drop,
      List.length_replicate, hlen]
    omega

/-- Is original position `k` inside some span of `ms`? -/
def coveredBy (ms : Matches) (k : Nat) : Bool :=
  ms.any (fun m => decide (m.1 ≤ k) && decide (k < m.2))

theorem pySubGo_getElem? (t : List Char) :
    ∀ (ms : Matches) (last j : Nat), Threaded t.length last ms →
      (pySubGo t last ms)[j]? =
        if coveredBy ms (last + j) then some maskFiller else t[last + j]? := by
  intro ms
  induction ms with
  | nil =>
    intro last j _
    simp [pySubGo, coveredBy, List.getElem?_drop]
  | cons q tail ih =>
    intro last j h
    obtain ⟨s, e⟩ := q
    obtain ⟨h1, h2, h3, h4⟩ := h
    have hAlen : ((t.drop last).take (s - last)).length = s - last := by
      simp only [List.length_take, List.length_drop]
      omega
    have hABlen :
        ((t.drop last).take (s - last) ++ List.replicate (e - s) maskFiller).length
          = e - last := by
      simp only [List.length_append, List.length_replicate, hAlen]
      omega
    have hcov : coveredBy ((s, e) :: tail) (last + j) =
        ((decide (s ≤ last + j) && decide (last + j < e)) || coveredBy tail (last + j)) := by
      simp [coveredBy]
    by_cases hj1 : j < s - last
    · -- before the match: untouched text, not covered
      rw [pySubGo, List.getElem?_append_left (by omega),
        List.getElem?_append_left (by omega), List.getElem?_take, if_pos hj1,
        List.getElem?_drop, hcov]
      have hhead : (decide (s ≤ last + j) && decide (last + j < e)) = false := by
        rw [Bool.and_eq_false_iff]
        left
        rw [decide_eq_false_iff_not]
        omega
      have htail : coveredBy tail (last + j) = false := by
        rw [coveredBy, List.any_eq_false]
        intro m hm
        have hge := threaded_start_ge tail e h4 m hm
        intro hcon
        rw [Bool.and_eq_true] at hcon
        have := of_decide_eq_true hcon.1
        omega
      rw [hhead, htail]
      rfl
    · by_cases hj2 : j < e - last
      · -- inside the match: filler, covered
        rw [pySubGo, List.getElem?_append_left (by omega),
          List.getElem?_append_right (by omega), hAlen, List.getElem?_replicate,
          if_pos (by omega), hcov]
        have hhead : (decide (s ≤ last + j) && decide (last + j < e)) = true := by
          rw [Bool.and_eq_true]
          exact ⟨decide_eq_true (by omega), decide_eq_true (by omega)⟩
        rw [hhead]
        rfl
      · -- after the match: recurse
        rw [pySubGo, List.getElem?_append_right (by omega), hABlen,
          ih e (j - (e - last)) h4]
        have harg : e + (j - (e - last)) = last + j := by omega
        rw [harg, hcov]
        have hhead : (decide (s ≤ last + j) && decide (last + j < e)) = false := by
          rw [Bool.and_eq_false_iff]
          right
          rw [decide_eq_false_iff_not]
          omega
        rw [hhead]
        rfl

theorem pySub_length {t : List Char} {ms : Matches} (h : ValidMatches t.length ms) :
    (pySub t ms).length = t.length := by
  rw [pySub, pySubGo_length t ms 0 (threaded_of_valid h)]
  omega

theorem pySub_getElem? {t : List Char} {ms : Matches} (h : ValidMatches t.length ms)
    (j : Nat) :
    (pySub t ms)[j]? = if coveredBy ms j then some maskFiller else t[j]? := by
  have := pySubGo_getElem? t ms 0 j (threaded_of_valid h)
  rw [pySub, this]
  simp

theorem exprMatcher_valid (E : ReEngine)
    (hE : ∀ p u, ValidMatches u.length (E.run p u)) (x t : List Char) :
    ValidMatches t.length (exprMatcher E x t) := by
  unfold exprMatcher
  split
  · exact hE x t
  · exact pyLiteralFinditer_valid x t

theorem maskGo_length (E : ReEngine)
    (hE : ∀ p u, ValidMatches u.length (E.run p u)) :
    ∀ (xs seen : List (List Char)) (t : List Char),
      (maskGo E xs seen t).length = t.length := by
  intro xs
  induction xs with
  | nil => intro seen t; rfl
  | cons x xs ih =>
    intro seen t
    rw [maskGo]
    split
    · exact ih seen t
    · rw [ih (x :: seen) _]
      exact pySub_length (exprMatcher_valid E hE x t)

theorem maskGo_getElem? (E : ReEngine)
    (hE : ∀ p u, ValidMatches u.length (E.run p u)) :
    ∀ (xs seen : List (List Char)) (t : List Char) (j : Nat),
      (maskGo E xs seen t)[j]? = some maskFiller ∨ (maskGo E xs seen t)[j]? = t[j]? := by
  intro xs
  induction xs with
  | nil => intro seen t j; exact Or.inr rfl
  | cons x xs ih =>
    intro seen t j
    rw [maskGo]
    split
    · exact ih seen t j
    · rcases ih (x :: seen) (pySub t (exprMatcher E x t)) j with h | h
      · exact Or.inl h
      · rw [h, pySub_getElem? (exprMatcher_valid E hE x t) j]
        split
        · exact Or.inl rfl
        · exact Or.inr rfl

/-- C7: masking is length-invariant and position-faithful — for every text, rule
dictionary and placeholder table, the masked text has exactly the length of the
input, and each position either carries the filler `□` (it was inside a matched
exclusion-expression span, replaced by filler of exactly the span's length) or
the unchanged input character. -/
theorem C7_mask_length_invariant (E : ReEngine)
    (pv : List (List Char × List (List Char))) (t : List Char)
    (ngWords : List (List Char × NGDetail))
    (hE : ∀ p u, ValidMatches u.length (E.run p u)) :
    (mask_safe_expressions E pv t ngWords).length = t.length ∧
      ∀ j : Nat,
        (mask_safe_expressions E pv t ngWords)[j]? = some maskFiller ∨
          (mask_safe_expressions E pv t ngWords)[j]? = t[j]? := by
  constructor
  · exact maskGo_length E hE _ [] t
  · intro j
    exact maskGo_getElem? E hE _ [] t j

/-- The engine whose compiled patterns are exactly the literal matchers: models
runs in which every exclusion expression is a plain literal regex. -/
def litEngine : ReEngine := ⟨fun _ => true, fun p t => pyLiteralFinditer p t⟩

/-- A concrete rule detail carrying one exclusion expression `"abc"`. -/
def detailC7 : NGDetail :=
  { original := chars "x", pattern := none, category := chars "C",
    shiteki := JsonVal.flat [], kaizen := JsonVal.flat [], tekisei := JsonVal.many [],
    kanren := [], kinshi := [], chuui := [], jogai := [chars "abc"], yoto := [] }

theorem C7_mask_length_invariant_witness :
    (∀ p u, ValidMatches u.length (litEngine.run p u)) ∧
      ((mask_safe_expressions litEngine [] (chars "zzabcy") [(chars "x", detailC7)]).length =
          (chars "zzabcy").length ∧
        ∀ j : Nat,
          (mask_safe_expressions litEngine [] (chars "zzabcy") [(chars "x", detailC7)])[j]? =
              some maskFiller ∨
            (mask_safe_expressions litEngine [] (chars "zzabcy") [(chars "x", detailC7)])[j]? =
              (chars "zzabcy")[j]? ) ∧
      mask_safe_expressions litEngine [] (chars "zzabcy") [(chars "x", detailC7)] =
        chars "zz□□□y" :=
  ⟨fun p u => pyLiteralFinditer_valid p u,
   C7_mask_length_invariant litEngine [] (chars "zzabcy") [(chars "x", detailC7)]
     (fun p u => pyLiteralFinditer_valid p u),
   by decide⟩


/-! ## The detector `check_advertisement_with_categories_masking` (C1, C2, C5) -/

/-- One `ViolationItem` produced by the detector; `hyogen` is the 表現 field (a
slice of the *original* text), `startPos`/`endPos` are 開始位置/終了位置, and the
remaining fields are the explanation payloads copied from the rule's detail. -/
structure ViolationItem where
  category : List Char
  hyogen : List Char
  startPos : Nat
  endPos : Nat
  shiteki : JsonVal
  kaizen : JsonVal
  tekisei : JsonVal
  kanren : List (List Char)
  kinshi : List (List Char)
  chuui : List (List Char)
deriving DecidableEq

/-- Python list indexing `l[i]` for a possibly negative `i` (a negative index
counts from the end); `none` models `IndexError`. -/
def pyGetI (l : List Nat) (i : Int) : Option Nat :=
  if 0 ≤ i then l[i.toNat]?
  else if i.natAbs ≤ l.length then l[l.length - i.natAbs]? else none

/-- Python slice `t[a:b]` for non-negative bounds. -/
def pySlice (t : List Char) (a b : Nat) : List Char := (t.take b).drop a

/-- The matcher used for one rule: the stored compiled `pattern` when present
and a `re.Pattern`, else the `compile_ng_word(details["original"])` fallback. -/
def matcherOf (E : ReEngine) (d : NGDetail) : List Char → Matches :=
  match d.pattern with
  | some m => m
  | none => compile_ng_word E d.original

/-- Check `any(start < e and end > s for s, e in matched_positions)`. -/
def overlapsAny (mp : Matches) (s e : Nat) : Bool :=
  mp.any (fun q => decide (s < q.2) && decide (e > q.1))

/-- Build one violation record for an accepted match back-mapped to original
offsets `[os, oe)`. -/
def mkViolation (adText : List Char) (d : NGDetail) (os oe : Nat) : ViolationItem :=
  { category := d.category, hyogen := pySlice adText os oe, startPos := os, endPos := oe,
    shiteki := d.shiteki, kaizen := d.kaizen, tekisei := d.tekisei,
    kanren := d.kanren, kinshi := d.kinshi, chuui := d.chuui }

/-- The inner loop over one rule's matches: reject candidates overlapping an
accepted span, back-map accepted ones through the offset map (`mapping[start]`
and `mapping[end - 1] + 1`, with Python's negative indexing), and append the
violation; a failed lookup is the `IndexError` the source can raise. -/
def goMatches (adText : List Char) (mapping : List Nat) (d : NGDetail) :
    Matches → Matches → List ViolationItem → Except Unit (Matches × List ViolationItem)
  | [], mp, acc => Except.ok (mp, acc)
  | (s, e) :: ms, mp, acc =>
    if overlapsAny mp s e then goMatches adText mapping d ms mp acc
    else
      match pyGetI mapping (s : Int), pyGetI mapping ((e : Int) - 1) with
      | some os, some ob =>
        goMatches adText mapping d ms ((s, e) :: mp)
          (acc ++ [mkViolation adText d os (ob + 1)])
      | _, _ => Except.error ()

/-- The outer loop over the sorted rules, threading accepted spans and output. -/
def goRules (E : ReEngine) (adText : List Char) (mapping : List Nat)
    (masked : List Char) :
    List (List Char × NGDetail) → Matches → List ViolationItem →
      Except Unit (Matches × List ViolationItem)
  | [], mp, acc => Except.ok (mp, acc)
  | (_, d) :: rs, mp, acc =>
    match goMatches adText mapping d (matcherOf E d masked) mp acc with
    | Except.ok st => goRules E adText mapping masked rs st.1 st.2
    | Except.error err => Except.error err

/-- Stable insertion for `sorted(ng_words.items(), key=lambda x: -len(x[0]))`:
descending key length, insertion order preserved among equal lengths (Python's
sort is stable, and the stable result is unique). -/
def insDesc (x : List Char × NGDetail) :
    List (List Char × NGDetail) → List (List Char × NGDetail)
  | [] => [x]
  | y :: ys => if y.1.length ≤ x.1.length then x :: y :: ys else y :: insDesc x ys

def sortRulesDesc (l : List (List Char × NGDetail)) : List (List Char × NGDetail) :=
  l.foldr insDesc []

/-- Stable insertion for the final `detected_violations.sort(key=...["開始位置"])`. -/
def insAsc (x : ViolationItem) : List ViolationItem → List ViolationItem
  | [] => [x]
  | y :: ys => if x.startPos ≤ y.startPos then x :: y :: ys else y :: insAsc x ys

def sortViolations (l : List ViolationItem) : List ViolationItem :=
  l.foldr insAsc []

/-- Function `check_advertisement_with_categories_masking(ad_text, ng_words)`: normalize
with offset map, mask exclusion expressions, scan rules longest-key-first with
overlap rejection, back-map accepted spans, and sort by start offset.  `E` is
the abstract regex engine and `pv` the external placeholder table. -/
def check_advertisement_with_categories_masking (E : ReEngine)
    (pv : List (List Char × List (List Char))) (adText : List Char)
    (ngWords : List (List Char × NGDetail)) : Except Unit (List ViolationItem) :=
  match goRules E adText (normalize_text_for_matching adText).2
      (mask_safe_expressions E pv (normalize_text_for_matching adText).1 ngWords)
      (sortRulesDesc ngWords) [] [] with
  | Except.ok st => Except.ok (sortViolations st.2)
  | Except.error err => Except.error err

theorem insAsc_perm (x : ViolationItem) (l : List ViolationItem) :
    List.Perm (insAsc x l) (x :: l) := by
  induction l with
  | nil => exact List.Perm.refl _
  | cons y ys ih =>
    rw [insAsc]
    split
    · exact List.Perm.refl _
    · exact List.Perm.trans (List.Perm.cons y ih) (List.Perm.swap x y ys)

theorem sortViolations_perm (l : List ViolationItem) : List.Perm (sortViolations l) l := by
  induction l with
  | nil => exact List.Perm.refl _
  | cons x xs ih =>
    exact List.Perm.trans (insAsc_perm x (sortViolations xs)) (List.Perm.cons x ih)

theorem insDesc_perm (x : List Char × NGDetail) (l : List (List Char × NGDetail)) :
    List.Perm (insDesc x l) (x :: l) := by
  induction l with
  | nil => exact List.Perm.refl _
  | cons y ys ih =>
    rw [insDesc]
    split
    · exact List.Perm.refl _
    · exact List.Perm.trans (List.Perm.cons y ih) (List.Perm.swap x y ys)

theorem sortRulesDesc_perm (l : List (List Char × NGDetail)) : List.Perm (sortRulesDesc l) l := by
  induction l with
  | nil => exact List.Perm.refl _
  | cons x xs ih =>
    exact List.Perm.trans (insDesc_perm x (sortRulesDesc xs)) (List.Perm.cons x ih)

theorem mem_sortRulesDesc {l : List (List Char × NGDetail)} {kv : List Char × NGDetail}
    (h : kv ∈ sortRulesDesc l) : kv ∈ l :=
  (sortRulesDesc_perm l).mem_iff.mp h

theorem pyGetI_ofNat (l : List Nat) (s : Nat) : pyGetI l (s : Int) = l[s]? := by
  unfold pyGetI
  rw [if_pos (by omega)]
  congr 1

theorem pyGetI_sub_one (l : List Nat) (e : Nat) (he : 1 ≤ e) :
    pyGetI l ((e : Int) - 1) = l[e - 1]? := by
  unfold pyGetI
  rw [if_pos (by omega)]
  congr 1
  omega

theorem getElem?_mono_of_pairwise {l : List Nat} (hp : l.Pairwise (· < ·))
    {i j x y : Nat} (hij : i < j) (hx : l[i]? = some x) (hy : l[j]? = some y) :
    x < y := by
  rw [List.getElem?_eq_some] at hx hy
  obtain ⟨hi, hx⟩ := hx
  obtain ⟨hj, hy⟩ := hy
  subst hx
  subst hy
  exact List.pairwise_iff_getElem.mp hp i j hi hj hij


theorem goMatches_nil (adText : List Char) (mapping : List Nat) (d : NGDetail)
    (mp : Matches) (acc : List ViolationItem) :
    goMatches adText mapping d [] mp acc = Except.ok (mp, acc) := rfl

theorem goMatches_cons_skip (adText : List Char) (mapping : List Nat) (d : NGDetail)
    (s e : Nat) (ms mp : Matches) (acc : List ViolationItem)
    (hov : overlapsAny mp s e = true) :
    goMatches adText mapping d ((s, e) :: ms) mp acc =
      goMatches adText mapping d ms mp acc := by
  rw [goMatches, if_pos hov]

theorem goMatches_cons_accept (adText : List Char) (mapping : List Nat) (d : NGDetail)
    (s e : Nat) (ms mp : Matches) (acc : List ViolationItem) (os ob : Nat)
    (hov : overlapsAny mp s e = false)
    (hos : pyGetI mapping (s : Int) = some os)
    (hob : pyGetI mapping ((e : Int) - 1) = some ob) :
    goMatches adText mapping d ((s, e) :: ms) mp acc =
      goMatches adText mapping d ms ((s, e) :: mp)
        (acc ++ [mkViolation adText d os (ob + 1)]) := by
  rw [goMatches, if_neg (by rw [hov]; exact Bool.false_ne_true), hos, hob]

theorem goMatches_cons_error (adText : List Char) (mapping : List Nat) (d : NGDetail)
    (s e : Nat) (ms mp : Matches) (acc : List ViolationItem)
    (hov : overlapsAny mp s e = false)
    (hnone : pyGetI mapping (s : Int) = none ∨ pyGetI mapping ((e : Int) - 1) = none) :
    goMatches adText mapping d ((s, e) :: ms) mp acc = Except.error () := by
  rw [goMatches, if_neg (by rw [hov]; exact Bool.false_ne_true)]
  rcases hnone with h | h
  · rw [h]
  · cases hx : pyGetI mapping (s : Int) with
    | none => rfl
    | some os => rw [h]

/-- Two violation items' half-open `[start, end)` spans do not intersect. -/
def SpanDisjoint (a b : ViolationItem) : Prop :=
  a.endPos ≤ b.startPos ∨ b.endPos ≤ a.startPos

theorem spanDisjoint_symm : Symmetric SpanDisjoint := by
  intro a b h
  rcases h with h | h
  · exact Or.inr h
  · exact Or.inl h

/-- Invariant of the detector's accumulation state: every emitted item derives
from an accepted, nonempty masked-text span through the offset map, accepted
spans are nonempty, and the emitted items are pairwise span-disjoint. -/
def GoodState (mapping : List Nat) (mp : Matches) (acc : List ViolationItem) : Prop :=
  (∀ v ∈ acc, ∃ s e ob, (s, e) ∈ mp ∧ s < e ∧ mapping[s]? = some v.startPos ∧
      mapping[e - 1]? = some ob ∧ v.endPos = ob + 1) ∧
  (∀ m ∈ mp, m.1 < m.2) ∧
  acc.Pairwise SpanDisjoint

theorem goMatches_good (adText : List Char) (mapping : List Nat) (d : NGDetail)
    (hmono : mapping.Pairwise (· < ·)) :
    ∀ (ms mp : Matches) (acc : List ViolationItem),
      (∀ m ∈ ms, m.1 < m.2) → GoodState mapping mp acc →
      ∀ st, goMatches adText mapping d ms mp acc = Except.ok st →
        GoodState mapping st.1 st.2 := by
  intro ms
  induction ms with
  | nil =>
    intro mp acc _ hg st hok
    rw [goMatches_nil] at hok
    cases hok
    exact hg
  | cons m ms ih =>
    intro mp acc hne hg st hok
    obtain ⟨s, e⟩ := m
    have hnehd : s < e := hne (s, e) (List.mem_cons_self _ _)
    have hnetl : ∀ m ∈ ms, m.1 < m.2 := fun m hm => hne m (List.mem_cons_of_mem _ hm)
    by_cases hov : overlapsAny mp s e = true
    · rw [goMatches_cons_skip _ _ _ _ _ _ _ _ hov] at hok
      exact ih mp acc hnetl hg st hok
    · have hovf : overlapsAny mp s e = false := by
        cases hx : overlapsAny mp s e
        · rfl
        · exact absurd hx hov
      cases hos : pyGetI mapping (s : Int) with
      | none =>
        rw [goMatches_cons_error _ _ _ _ _ _ _ _ hovf (Or.inl hos)] at hok
        cases hok
      | some os =>
        cases hob : pyGetI mapping ((e : Int) - 1) with
        | none =>
          rw [goMatches_cons_error _ _ _ _ _ _ _ _ hovf (Or.inr hob)] at hok
          cases hok
        | some ob =>
          rw [goMatches_cons_accept _ _ _ _ _ _ _ _ _ _ hovf hos hob] at hok
          apply ih _ _ hnetl _ st hok
          obtain ⟨hg1, hg2, hg3⟩ := hg
          have hosE : mapping[s]? = some os := by
            rw [← pyGetI_ofNat]; exact hos
          have hobE : mapping[e - 1]? = some ob := by
            rw [← pyGetI_sub_one mapping e (by omega)]; exact hob
          refine ⟨?_, ?_, ?_⟩
          · intro v hv
            rcases List.mem_append.mp hv with hv | hv
            · obtain ⟨s2, e2, ob2, hmem, hne2, hx2, hy2, hz2⟩ := hg1 v hv
              exact ⟨s2, e2, ob2, List.mem_cons_of_mem _ hmem, hne2, hx2, hy2, hz2⟩
            · rw [List.mem_singleton] at hv
              subst hv
              exact ⟨s, e, ob, List.mem_cons_self _ _, hnehd, hosE, hobE, rfl⟩
          · intro m hm
            rcases List.mem_cons.mp hm with rfl | hm
            · exact hnehd
            · exact hg2 m hm
          · rw [List.pairwise_append]
            refine ⟨hg3, List.pairwise_singleton _ _, ?_⟩
            intro u hu w hw
            rw [List.mem_singleton] at hw
            subst hw
            obtain ⟨s2, e2, ob2, hmem, hne2, hx2, hy2, hz2⟩ := hg1 u hu
            have hq := List.any_eq_false.mp hovf (s2, e2) hmem
            have hq2 : ¬(s < e2 ∧ e > s2) := by
              intro hcon
              exact hq (by
                rw [Bool.and_eq_true]
                exact ⟨decide_eq_true hcon.1, decide_eq_true hcon.2⟩)
            rcases (by omega : e ≤ s2 ∨ e2 ≤ s) with hcase | hcase
            · -- the new span lies entirely before u's span
              right
              have hlt : ob < u.startPos :=
                getElem?_mono_of_pairwise hmono (by omega : e - 1 < s2) hobE hx2
              have hproj : (mkViolation adText d os (ob + 1)).endPos = ob + 1 := rfl
              show (mkViolation adText d os (ob + 1)).endPos ≤ u.startPos
              omega
            · -- the new span lies entirely after u's span
              left
              have hlt : ob2 < os :=
                getElem?_mono_of_pairwise hmono (by omega : e2 - 1 < s) hy2 hosE
              have hproj : (mkViolation adText d os (ob + 1)).startPos = os := rfl
              show u.endPos ≤ (mkViolation adText d os (ob + 1)).startPos
              omega

theorem goRules_good (E : ReEngine) (adText : List Char) (mapping : List Nat)
    (masked : List Char) (hmono : mapping.Pairwise (· < ·)) :
    ∀ (rs : List (List Char × NGDetail)) (mp : Matches) (acc : List ViolationItem),
      (∀ r ∈ rs, ∀ m ∈ matcherOf E r.2 masked, m.1 < m.2) →
      GoodState mapping mp acc →
      ∀ st, goRules E adText mapping masked rs mp acc = Except.ok st →
        GoodState mapping st.1 st.2 := by
  intro rs
  induction rs with
  | nil =>
    intro mp acc _ hg st hok
    rw [goRules] at hok
    cases hok
    exact hg
  | cons r rs ih =>
    intro mp acc hne hg st hok
    obtain ⟨k, d⟩ := r
    rw [goRules] at hok
    cases hgm : goMatches adText mapping d (matcherOf E d masked) mp acc with
    | error err => rw [hgm] at hok; cases hok
    | ok st1 =>
      rw [hgm] at hok
      have hg1 := goMatches_good adText mapping d hmono _ mp acc
        (hne (k, d) (List.mem_cons_self _ _)) hg st1 hgm
      exact ih st1.1 st1.2 (fun r hr => hne r (List.mem_cons_of_mem _ hr)) hg1 st hok

/-- C1 (amended): whenever every rule pattern's matches on the masked text are
non-empty, no two returned ViolationItems have intersecting `[start, end)` spans
in the original text: accepted matches are disjoint in masked-text coordinates
and back-mapping through the strictly increasing offset map preserves
disjointness.  (Zero-width regex matches break the claim as frozen; see the
counterexample.) -/
theorem C1_amended_overlap_free (E : ReEngine)
    (pv : List (List Char × List (List Char))) (adText : List Char)
    (ngWords : List (List Char × NGDetail)) (vs : List ViolationItem)
    (hne : ∀ kv ∈ ngWords, ∀ m ∈ matcherOf E kv.2
        (mask_safe_expressions E pv (normalize_text_for_matching adText).1 ngWords),
        m.1 < m.2)
    (hok : check_advertisement_with_categories_masking E pv adText ngWords =
      Except.ok vs) :
    vs.Pairwise SpanDisjoint := by
  unfold check_advertisement_with_categories_masking at hok
  cases hgr : goRules E adText (normalize_text_for_matching adText).2
      (mask_safe_expressions E pv (normalize_text_for_matching adText).1 ngWords)
      (sortRulesDesc ngWords) [] [] with
  | error err => rw [hgr] at hok; cases hok
  | ok st =>
    rw [hgr] at hok
    cases hok
    have hgood := goRules_good E adText _ _ (normAux_snd_pairwise 0 adText) _ [] []
      (fun r hr => hne r (mem_sortRulesDesc hr))
      ⟨fun v hv => absurd hv (List.not_mem_nil v),
       fun m hm => absurd hm (List.not_mem_nil m), List.Pairwise.nil⟩ st hgr
    exact ((sortViolations_perm st.2).pairwise_iff (fun {a b} h => spanDisjoint_symm h)).mpr hgood.2.2


instance (a b : ViolationItem) : Decidable (SpanDisjoint a b) := by
  unfold SpanDisjoint
  infer_instance

instance {ε α : Type} [DecidableEq ε] [DecidableEq α] : DecidableEq (Except ε α) :=
  fun a b =>
    match a, b with
    | Except.ok x, Except.ok y =>
      if h : x = y then isTrue (by rw [h]) else isFalse (by intro hc; cases hc; exact h rfl)
    | Except.error x, Except.error y =>
      if h : x = y then isTrue (by rw [h]) else isFalse (by intro hc; cases hc; exact h rfl)
    | Except.ok _, Except.error _ => isFalse (by intro hc; cases hc)
    | Except.error _, Except.ok _ => isFalse (by intro hc; cases hc)

/-- Spans of `finditer` of a pure-lookahead pattern `(?=p)`: a zero-width match at every
position where `p` follows (for `(?=a)` on `"ab"` Python yields `[(0, 0)]`). -/
def lookaheadFinditer (p : List Char) (t : List Char) : Matches :=
  ((List.range (t.length + 1)).filter (fun i => p.isPrefixOf (t.drop i))).map
    (fun i => (i, i))

/-- A detail record with empty explanation payloads and no exclusions. -/
def blankDetail (orig cat : List Char) (m : Option (List Char → Matches)) : NGDetail :=
  { original := orig, pattern := m, category := cat,
    shiteki := JsonVal.flat [], kaizen := JsonVal.flat [], tekisei := JsonVal.many [],
    kanren := [], kinshi := [], chuui := [], jogai := [], yoto := [] }

/-- The C1 counterexample dictionary: the five-character phrase `"(?=a)"` (whose
pattern matches zero-width wherever `a` follows) and the phrase `"a"`. -/
def rulesC1X : List (List Char × NGDetail) :=
  [(chars "(?=a)",
      blankDetail (chars "(?=a)") (chars "P") (some (lookaheadFinditer (chars "a")))),
   (chars "a", blankDetail (chars "a") (chars "Q") (some (pyLiteralFinditer (chars "a"))))]

/-- C1 counterexample: on text `"ab"` with the rules `{"(?=a)": …, "a": …}` the
detector accepts the zero-width match `(0,0)` first; `mapping[end - 1]` is
`mapping[-1]`, Python wrap-around indexing, so the item back-maps to original
span `[0, 2)`; the later match of `"a"` at `(0, 1)` does not "overlap" the empty
span and back-maps to `[0, 1)`.  The two returned spans intersect, refuting the
claim as stated. -/
theorem C1_counterexample :
    (check_advertisement_with_categories_masking failEngine [] (chars "ab") rulesC1X).map
        (fun l => l.map (fun v => (v.startPos, v.endPos))) = Except.ok [(0, 2), (0, 1)] ∧
      (check_advertisement_with_categories_masking failEngine [] (chars "ab") rulesC1X).map
        (fun l => decide (l.Pairwise SpanDisjoint)) = Except.ok false := by
  constructor
  · decide
  · decide

def dC1Wa : NGDetail :=
  blankDetail (chars "ab") (chars "A") (some (pyLiteralFinditer (chars "ab")))

def dC1Wb : NGDetail :=
  blankDetail (chars "y") (chars "B") (some (pyLiteralFinditer (chars "y")))

def rulesC1W : List (List Char × NGDetail) :=
  [(chars "ab", dC1Wa), (chars "y", dC1Wb)]

def vsC1W : List ViolationItem :=
  [mkViolation (chars "xaby") dC1Wa 1 3, mkViolation (chars "xaby") dC1Wb 3 4]

theorem C1_amended_overlap_free_witness :
    (∀ kv ∈ rulesC1W, ∀ m ∈ matcherOf litEngine kv.2
        (mask_safe_expressions litEngine []
          (normalize_text_for_matching (chars "xaby")).1 rulesC1W), m.1 < m.2) ∧
      check_advertisement_with_categories_masking litEngine [] (chars "xaby") rulesC1W =
        Except.ok vsC1W ∧
      vsC1W.Pairwise SpanDisjoint :=
  ⟨by decide, by decide,
   C1_amended_overlap_free litEngine [] (chars "xaby") rulesC1W vsC1W (by decide) (by decide)⟩

theorem goMatches_ok (adText : List Char) (mapping : List Nat) (d : NGDetail) :
    ∀ (ms mp : Matches) (acc : List ViolationItem),
      (∀ m ∈ ms, m.1 < m.2 ∧ m.2 ≤ mapping.length) →
      ∃ st, goMatches adText mapping d ms mp acc = Except.ok st := by
  intro ms
  induction ms with
  | nil => intro mp acc _; exact ⟨(mp, acc), rfl⟩
  | cons m ms ih =>
    intro mp acc hb
    obtain ⟨s, e⟩ := m
    have hhd := hb (s, e) (List.mem_cons_self _ _)
    have htl : ∀ m ∈ ms, m.1 < m.2 ∧ m.2 ≤ mapping.length :=
      fun m hm => hb m (List.mem_cons_of_mem _ hm)
    by_cases hov : overlapsAny mp s e = true
    · obtain ⟨st, hst⟩ := ih mp acc htl
      exact ⟨st, by rw [goMatches_cons_skip _ _ _ _ _ _ _ _ hov]; exact hst⟩
    · have hovf : overlapsAny mp s e = false := by
        cases hx : overlapsAny mp s e
        · rfl
        · exact absurd hx hov
      have hs : s < mapping.length := by omega
      have he1 : e - 1 < mapping.length := by omega
      have hos : pyGetI mapping (s : Int) = some mapping[s] := by
        rw [pyGetI_ofNat]
        exact List.getElem?_eq_getElem hs
      have hob : pyGetI mapping ((e : Int) - 1) = some mapping[e - 1] := by
        rw [pyGetI_sub_one mapping e (by omega)]
        exact List.getElem?_eq_getElem he1
      obtain ⟨st, hst⟩ := ih ((s, e) :: mp)
        (acc ++ [mkViolation adText d mapping[s] (mapping[e - 1] + 1)]) htl
      exact ⟨st, by rw [goMatches_cons_accept _ _ _ _ _ _ _ _ _ _ hovf hos hob]; exact hst⟩

theorem goRules_ok (E : ReEngine) (adText : List Char) (mapping : List Nat)
    (masked : List Char) :
    ∀ (rs : List (List Char × NGDetail)) (mp : Matches) (acc : List ViolationItem),
      (∀ r ∈ rs, ∀ m ∈ matcherOf E r.2 masked, m.1 < m.2 ∧ m.2 ≤ mapping.length) →
      ∃ st, goRules E adText mapping masked rs mp acc = Except.ok st := by
  intro rs
  induction rs with
  | nil => intro mp acc _; exact ⟨(mp, acc), rfl⟩
  | cons r rs ih =>
    intro mp acc hb
    obtain ⟨k, d⟩ := r
    obtain ⟨st1, h1⟩ := goMatches_ok adText mapping d (matcherOf E d masked) mp acc
      (hb (k, d) (List.mem_cons_self _ _))
    obtain ⟨st, hst⟩ := ih st1.1 st1.2 (fun r hr => hb r (List.mem_cons_of_mem _ hr))
    exact ⟨st, by rw [goRules, h1]; exact hst⟩

/-- C5 (amended): the detector raises no exception provided (i) every rule
pattern's matches on the masked text are non-empty and within bounds, and
(ii) normalization produced text and offset map of equal length (no
map-breaking character, see C3).  A rule whose compiled pattern fails is already
replaced by the literal fallback inside `compile_ng_word`, so no per-rule
compilation failure propagates.  Zero-width matches (see the counterexample)
and map-breaking characters make the source raise `IndexError`, which its
docstring documents. -/
theorem C5_amended_no_error (E : ReEngine)
    (pv : List (List Char × List (List Char))) (adText : List Char)
    (ngWords : List (List Char × NGDetail))
    (hE : ∀ p u, ValidMatches u.length (E.run p u))
    (hmap : (normalize_text_for_matching adText).1.length =
      (normalize_text_for_matching adText).2.length)
    (hm : ∀ kv ∈ ngWords, ∀ m ∈ matcherOf E kv.2
        (mask_safe_expressions E pv (normalize_text_for_matching adText).1 ngWords),
        m.1 < m.2 ∧ m.2 ≤
          (mask_safe_expressions E pv (normalize_text_for_matching adText).1 ngWords).length) :
    ∃ vs, check_advertisement_with_categories_masking E pv adText ngWords =
      Except.ok vs := by
  have hmask : (mask_safe_expressions E pv
      (normalize_text_for_matching adText).1 ngWords).length =
      (normalize_text_for_matching adText).1.length :=
    maskGo_length E hE _ [] _
  obtain ⟨st, hst⟩ := goRules_ok E adText (normalize_text_for_matching adText).2
    (mask_safe_expressions E pv (normalize_text_for_matching adText).1 ngWords)
    (sortRulesDesc ngWords) [] []
    (fun r hr m hmm => by
      have := hm r (mem_sortRulesDesc hr) m hmm
      omega)
  refine ⟨sortViolations st.2, ?_⟩
  unfold check_advertisement_with_categories_masking
  rw [hst]

/-- The C5 counterexample dictionary: the empty phrase, whose compiled pattern
`re.compile("")` matches zero-width at every position including the end of the
text. -/
def rulesC5X : List (List Char × NGDetail) :=
  [(chars "", blankDetail (chars "") (chars "E") (some (pyLiteralFinditer (chars ""))))]

/-- C5 counterexample: on text `"b"` the empty pattern yields matches `(0,0)` and
`(1,1)`; the second is accepted (it does not overlap the first) and
`mapping[1]` raises `IndexError` — the detection call raises for degenerate
rule content. -/
theorem C5_counterexample :
    check_advertisement_with_categories_masking failEngine [] (chars "b") rulesC5X =
      Except.error () := by decide

def dC5W : NGDetail :=
  blankDetail (chars "ab") (chars "W") (some (pyLiteralFinditer (chars "ab")))

def rulesC5W : List (List Char × NGDetail) := [(chars "ab", dC5W)]

theorem C5_amended_no_error_witness :
    (∀ p u, ValidMatches u.length (litEngine.run p u)) ∧
      (normalize_text_for_matching (chars "zab")).1.length =
        (normalize_text_for_matching (chars "zab")).2.length ∧
      (∀ kv ∈ rulesC5W, ∀ m ∈ matcherOf litEngine kv.2
          (mask_safe_expressions litEngine []
            (normalize_text_for_matching (chars "zab")).1 rulesC5W),
          m.1 < m.2 ∧ m.2 ≤
            (mask_safe_expressions litEngine []
              (normalize_text_for_matching (chars "zab")).1 rulesC5W).length) ∧
      ∃ vs, check_advertisement_with_categories_masking litEngine [] (chars "zab") rulesC5W =
        Except.ok vs :=
  ⟨fun p u => pyLiteralFinditer_valid p u, by decide, by decide,
   C5_amended_no_error litEngine [] (chars "zab") rulesC5W
     (fun p u => pyLiteralFinditer_valid p u) (by decide) (by decide)⟩


theorem goMatches_append_only (adText : List Char) (mapping : List Nat) (d : NGDetail) :
    ∀ (ms mp : Matches) (acc : List ViolationItem) (st : Matches × List ViolationItem),
      goMatches adText mapping d ms mp acc = Except.ok st →
      ∀ v ∈ st.2, v ∈ acc ∨ v.category = d.category := by
  intro ms
  induction ms with
  | nil =>
    intro mp acc st hok v hv
    rw [goMatches_nil] at hok
    cases hok
    exact Or.inl hv
  | cons m ms ih =>
    intro mp acc st hok v hv
    obtain ⟨s, e⟩ := m
    by_cases hov : overlapsAny mp s e = true
    · rw [goMatches_cons_skip _ _ _ _ _ _ _ _ hov] at hok
      exact ih mp acc st hok v hv
    · have hovf : overlapsAny mp s e = false := by
        cases hx : overlapsAny mp s e
        · rfl
        · exact absurd hx hov
      cases hos : pyGetI mapping (s : Int) with
      | none =>
        rw [goMatches_cons_error _ _ _ _ _ _ _ _ hovf (Or.inl hos)] at hok
        cases hok
      | some os =>
        cases hob : pyGetI mapping ((e : Int) - 1) with
        | none =>
          rw [goMatches_cons_error _ _ _ _ _ _ _ _ hovf (Or.inr hob)] at hok
          cases hok
        | some ob =>
          rw [goMatches_cons_accept _ _ _ _ _ _ _ _ _ _ hovf hos hob] at hok
          rcases ih _ _ st hok v hv with hin | hcat
          · rcases List.mem_append.mp hin with hin | hin
            · exact Or.inl hin
            · rw [List.mem_singleton] at hin
              subst hin
              exact Or.inr rfl
          · exact Or.inr hcat

theorem goMatches_mp_mono (adText : List Char) (mapping : List Nat) (d : NGDetail) :
    ∀ (ms mp : Matches) (acc : List ViolationItem) (st : Matches × List ViolationItem),
      goMatches adText mapping d ms mp acc = Except.ok st →
      ∀ q ∈ mp, q ∈ st.1 := by
  intro ms
  induction ms with
  | nil =>
    intro mp acc st hok q hq
    rw [goMatches_nil] at hok
    cases hok
    exact hq
  | cons m ms ih =>
    intro mp acc st hok q hq
    obtain ⟨s, e⟩ := m
    by_cases hov : overlapsAny mp s e = true
    · rw [goMatches_cons_skip _ _ _ _ _ _ _ _ hov] at hok
      exact ih mp acc st hok q hq
    · have hovf : overlapsAny mp s e = false := by
        cases hx : overlapsAny mp s e
        · rfl
        · exact absurd hx hov
      cases hos : pyGetI mapping (s : Int) with
      | none =>
        rw [goMatches_cons_error _ _ _ _ _ _ _ _ hovf (Or.inl hos)] at hok
        cases hok
      | some os =>
        cases hob : pyGetI mapping ((e : Int) - 1) with
        | none =>
          rw [goMatches_cons_error _ _ _ _ _ _ _ _ hovf (Or.inr hob)] at hok
          cases hok
        | some ob =>
          rw [goMatches_cons_accept _ _ _ _ _ _ _ _ _ _ hovf hos hob] at hok
          exact ih _ _ st hok q (List.mem_cons_of_mem _ hq)

theorem sorted_tail_ge :
    ∀ (ms : Matches) (s e : Nat),
      (∀ m ∈ ms, m.1 ≤ m.2) →
      List.Chain' (fun a b : Nat × Nat => a.2 ≤ b.1) ((s, e) :: ms) →
      ∀ m ∈ ms, e ≤ m.1 := by
  intro ms
  induction ms with
  | nil => intro s e _ _ m hm; cases hm
  | cons m2 ms2 ih =>
    intro s e hb hch m hm
    obtain ⟨a2, b2⟩ := m2
    obtain ⟨hab, hch2⟩ := List.chain'_cons.mp hch
    rcases List.mem_cons.mp hm with rfl | hm
    · exact hab
    · have h1 := ih a2 b2 (fun m hm => hb m (List.mem_cons_of_mem _ hm)) hch2 m hm
      have h2 := hb (a2, b2) (List.mem_cons_self _ _)
      simp only at hab h2
      omega

theorem goMatches_accept_all (adText : List Char) (mapping : List Nat) (d : NGDetail) :
    ∀ (ms mp : Matches) (acc : List ViolationItem),
      (∀ m ∈ ms, m.1 ≤ m.2) →
      List.Chain' (fun a b : Nat × Nat => a.2 ≤ b.1) ms →
      (∀ m ∈ ms, ∀ q ∈ mp, q.2 ≤ m.1 ∨ m.2 ≤ q.1) →
      ∀ st, goMatches adText mapping d ms mp acc = Except.ok st →
        ∀ m ∈ ms, m ∈ st.1 := by
  intro ms
  induction ms with
  | nil => intro mp acc _ _ _ st _ m hm; cases hm
  | cons m0 ms ih =>
    intro mp acc hb hch hclear st hok m hm
    obtain ⟨s, e⟩ := m0
    have hovf : overlapsAny mp s e = false := by
      rw [overlapsAny, List.any_eq_false]
      intro q hq hcon
      rw [Bool.and_eq_true, decide_eq_true_eq, decide_eq_true_eq] at hcon
      have := hclear (s, e) (List.mem_cons_self _ _) q hq
      simp only at this
      omega
    have hov : ¬ overlapsAny mp s e = true := by
      rw [hovf]
      exact Bool.false_ne_true
    cases hos : pyGetI mapping (s : Int) with
    | none =>
      rw [goMatches_cons_error _ _ _ _ _ _ _ _ hovf (Or.inl hos)] at hok
      cases hok
    | some os =>
      cases hob : pyGetI mapping ((e : Int) - 1) with
      | none =>
        rw [goMatches_cons_error _ _ _ _ _ _ _ _ hovf (Or.inr hob)] at hok
        cases hok
      | some ob =>
        rw [goMatches_cons_accept _ _ _ _ _ _ _ _ _ _ hovf hos hob] at hok
        rcases List.mem_cons.mp hm with rfl | hm
        · exact goMatches_mp_mono adText mapping d _ _ _ st hok (s, e)
            (List.mem_cons_self _ _)
        · apply ih ((s, e) :: mp) _ (fun m hm => hb m (List.mem_cons_of_mem _ hm))
            (List.chain'_cons'.mp hch).2 ?_ st hok m hm
          intro m2 hm2 q hq
          rcases List.mem_cons.mp hq with rfl | hq
          · exact Or.inl (sorted_tail_ge ms s e
              (fun m hm => hb m (List.mem_cons_of_mem _ hm)) hch m2 hm2)
          · exact hclear m2 (List.mem_cons_of_mem _ hm2) q hq

theorem goMatches_reject_all (adText : List Char) (mapping : List Nat) (d : NGDetail) :
    ∀ (ms mp : Matches) (acc : List ViolationItem),
      (∀ m ∈ ms, overlapsAny mp m.1 m.2 = true) →
      goMatches adText mapping d ms mp acc = Except.ok (mp, acc) := by
  intro ms
  induction ms with
  | nil => intro mp acc _; rfl
  | cons m ms ih =>
    intro mp acc hrej
    obtain ⟨s, e⟩ := m
    rw [goMatches_cons_skip _ _ _ _ _ _ _ _ (hrej (s, e) (List.mem_cons_self _ _))]
    exact ih mp acc (fun m hm => hrej m (List.mem_cons_of_mem _ hm))

/-- C2 (amended): when the dictionary holds the two phrases `p` and `q` with
`q` strictly shorter (in particular a proper substring of `p`), neither rule
carries exclusion expressions, `p`'s matches are the non-overlapping non-empty
spans `finditer` guarantees, and every match of `q` overlaps some match of `p`
(both match at the same text location), then every returned ViolationItem stems
from `p`: only the longer phrase's matches are reported.  (With further rules
present, an even longer rule can block `p` while leaving `q` reported; see the
counterexample.) -/
theorem C2_amended_longest_wins (E : ReEngine)
    (pv : List (List Char × List (List Char))) (adText : List Char)
    (p q : List Char) (dp dq : NGDetail) (vs : List ViolationItem)
    (hlen : q.length < p.length)
    (hjp : dp.jogai = []) (hjq : dq.jogai = [])
    (hbA : ∀ m ∈ matcherOf E dp (normalize_text_for_matching adText).1, m.1 < m.2)
    (hchA : List.Chain' (fun a b : Nat × Nat => a.2 ≤ b.1)
      (matcherOf E dp (normalize_text_for_matching adText).1))
    (hover : ∀ m2 ∈ matcherOf E dq (normalize_text_for_matching adText).1,
      ∃ m ∈ matcherOf E dp (normalize_text_for_matching adText).1,
        m2.1 < m.2 ∧ m.1 < m2.2)
    (hok : check_advertisement_with_categories_masking E pv adText [(p, dp), (q, dq)] =
      Except.ok vs) :
    ∀ v ∈ vs, v.category = dp.category := by
  have hmask : mask_safe_expressions E pv (normalize_text_for_matching adText).1
      [(p, dp), (q, dq)] = (normalize_text_for_matching adText).1 := by
    unfold mask_safe_expressions
    rw [List.flatMap_cons, List.flatMap_cons, List.flatMap_nil]
    simp only [hjp, hjq, List.flatMap_nil, List.append_nil]
    rfl
  have hsort : sortRulesDesc [(p, dp), (q, dq)] = [(p, dp), (q, dq)] := by
    unfold sortRulesDesc
    rw [List.foldr_cons, List.foldr_cons, List.foldr_nil]
    rw [insDesc, insDesc, if_pos (le_of_lt hlen)]
  unfold check_advertisement_with_categories_masking at hok
  rw [hmask, hsort] at hok
  cases hgm1 : goMatches adText (normalize_text_for_matching adText).2 dp
      (matcherOf E dp (normalize_text_for_matching adText).1) [] [] with
  | error err =>
    rw [goRules, hgm1] at hok
    cases hok
  | ok st1 =>
    have hall : ∀ m ∈ matcherOf E dp (normalize_text_for_matching adText).1, m ∈ st1.1 :=
      goMatches_accept_all adText (normalize_text_for_matching adText).2 dp _ [] []
        (fun m hm => le_of_lt (hbA m hm)) hchA
        (fun m _ q hq => absurd hq (List.not_mem_nil q)) st1 hgm1
    have hcat1 : ∀ v ∈ st1.2, v.category = dp.category := by
      intro v hv
      rcases goMatches_append_only adText (normalize_text_for_matching adText).2 dp
          _ [] [] st1 hgm1 v hv with hin | hcat
      · exact absurd hin (List.not_mem_nil v)
      · exact hcat
    have hrej : ∀ m2 ∈ matcherOf E dq (normalize_text_for_matching adText).1,
        overlapsAny st1.1 m2.1 m2.2 = true := by
      intro m2 hm2
      obtain ⟨m, hmA, h1, h2⟩ := hover m2 hm2
      rw [overlapsAny, List.any_eq_true]
      refine ⟨m, hall m hmA, ?_⟩
      rw [Bool.and_eq_true]
      exact ⟨decide_eq_true h1, decide_eq_true h2⟩
    have hstep : goRules E adText (normalize_text_for_matching adText).2
        (normalize_text_for_matching adText).1 [(p, dp), (q, dq)] [] [] =
        Except.ok (st1.1, st1.2) := by
      rw [goRules, hgm1]
      show goRules E adText (normalize_text_for_matching adText).2
        (normalize_text_for_matching adText).1 [(q, dq)] st1.1 st1.2 =
        Except.ok (st1.1, st1.2)
      rw [goRules,
        goMatches_reject_all adText (normalize_text_for_matching adText).2 dq _ st1.1
          st1.2 hrej]
      rfl
    rw [hstep] at hok
    cases hok
    intro v hv
    exact hcat1 v ((sortViolations_perm st1.2).mem_iff.mp hv)

def dC2wp : NGDetail :=
  blankDetail (chars "abc") (chars "P") (some (pyLiteralFinditer (chars "abc")))

def dC2wq : NGDetail :=
  blankDetail (chars "bc") (chars "Q") (some (pyLiteralFinditer (chars "bc")))

def vsC2W : List ViolationItem := [mkViolation (chars "xxabcy") dC2wp 2 5]

theorem C2_amended_longest_wins_witness :
    ((chars "bc").length < (chars "abc").length ∧
      dC2wp.jogai = [] ∧ dC2wq.jogai = [] ∧
      (∀ m ∈ matcherOf litEngine dC2wp (normalize_text_for_matching (chars "xxabcy")).1,
        m.1 < m.2) ∧
      List.Chain' (fun a b : Nat × Nat => a.2 ≤ b.1)
        (matcherOf litEngine dC2wp (normalize_text_for_matching (chars "xxabcy")).1) ∧
      (∀ m2 ∈ matcherOf litEngine dC2wq (normalize_text_for_matching (chars "xxabcy")).1,
        ∃ m ∈ matcherOf litEngine dC2wp (normalize_text_for_matching (chars "xxabcy")).1,
          m2.1 < m.2 ∧ m.1 < m2.2) ∧
      check_advertisement_with_categories_masking litEngine [] (chars "xxabcy")
        [(chars "abc", dC2wp), (chars "bc", dC2wq)] = Except.ok vsC2W) ∧
    ∀ v ∈ vsC2W, v.category = dC2wp.category :=
  ⟨⟨by decide, rfl, rfl, by decide, (by
        have h : matcherOf litEngine dC2wp (normalize_text_for_matching (chars "xxabcy")).1 =
            [(2, 5)] := by decide
        rw [h]
        exact List.chain'_singleton _), by decide, by decide⟩,
   C2_amended_longest_wins litEngine [] (chars "xxabcy") (chars "abc") (chars "bc")
     dC2wp dC2wq vsC2W (by decide) rfl rfl (by decide) (by
        have h : matcherOf litEngine dC2wp (normalize_text_for_matching (chars "xxabcy")).1 =
            [(2, 5)] := by decide
        rw [h]
        exact List.chain'_singleton _) (by decide) (by decide)⟩

def dC2B : NGDetail :=
  blankDetail (chars "a{1}") (chars "B") (some (pyLiteralFinditer (chars "a")))

def dC2P : NGDetail :=
  blankDetail (chars "abc") (chars "P") (some (pyLiteralFinditer (chars "abc")))

def dC2Q : NGDetail :=
  blankDetail (chars "bc") (chars "Q") (some (pyLiteralFinditer (chars "bc")))

/-- The C2 counterexample dictionary: `"a{1}"` (a four-character key whose
pattern matches the single character `a`), `"abc"`, and its substring `"bc"`. -/
def rulesC2X : List (List Char × NGDetail) :=
  [(chars "a{1}", dC2B), (chars "abc", dC2P), (chars "bc", dC2Q)]

/-- C2 counterexample: on `"xabc"` the dictionary contains the phrases `"abc"`
and `"bc"` where `"bc"` is a substring of `"abc"` and both match at the same
location (spans `(1,4)` and `(2,4)` of the text).  The longer-keyed rule
`"a{1}"` is scanned first and accepts span `(1,2)`; it blocks `"abc"` but not
`"bc"`, so the output reports the *shorter* phrase's match (category `Q`) and
not the longer one's (`P` is absent) — refuting the claim as stated. -/
theorem C2_counterexample :
    (check_advertisement_with_categories_masking failEngine [] (chars "xabc") rulesC2X).map
        (fun l => l.map (fun v => (v.category, v.startPos, v.endPos))) =
      Except.ok [(chars "B", 1, 2), (chars "Q", 2, 4)] := by decide


/-! ## `extract_ng_data_from_subcategories` (C4, C9) -/

/-- One entry of a subcategory's `NGワードと禁止理由` list.  `Option` models
presence of the JSON key (the source reads each field with `.get` and a
default).  Romanized keys: `riyu` = 理由, `kaizen` = 改善提案, `tekisei` =
適正表現例, `jogai` = 除外表現, `taisho` = 対象ワード. -/
structure NGEntry where
  riyu : Option JsonVal
  kaizen : Option JsonVal
  tekisei : Option JsonVal
  jogai : Option (List (List Char))
  taisho : Option (List (List Char))

/-- One subcategory record: `name`, 用途区分 (`yoto`), 関連法令等 (`kanren`),
共通禁止事項 (`kinshi`), 注意点 (`chuui`), and the `NGワードと禁止理由` entries. -/
structure SubCatData where
  name : Option (List Char)
  yoto : Option (List (List Char))
  kanren : Option (List (List Char))
  kinshi : Option (List (List Char))
  chuui : Option (List (List Char))
  ngItems : Option (List NGEntry)

/-- Insert one expanded word into the accumulating dictionary: skip the empty
word (`if not final_word: continue`) and words already present
(`if final_word not in ng_words`, a key test over the whole dictionary). -/
def insertWord (E : ReEngine) (catStr : List Char)
    (yotoL kanrenL kinshiL chuuiL : List (List Char))
    (riyuV kaizenV tekiseiV : JsonVal) (jogaiL : List (List Char))
    (acc : List (List Char × NGDetail)) (w : List Char) :
    List (List Char × NGDetail) :=
  if w = [] then acc
  else if acc.any (fun kv => kv.1 == w) then acc
  else
    acc ++ [(w,
      { original := w, pattern := some (compile_ng_word E w), category := catStr,
        shiteki := riyuV, kaizen := kaizenV, tekisei := tekiseiV,
        kanren := kanrenL, kinshi := kinshiL, chuui := chuuiL,
        jogai := jogaiL, yoto := yotoL })]

/-- Process one rule entry: resolve the explanation fields with their defaults
(copied as-is, whatever their shape), then placeholder-expand every target word
and insert each resulting word. -/
def processItem (E : ReEngine) (pv : List (List Char × List (List Char)))
    (catStr : List Char) (yotoL kanrenL kinshiL chuuiL : List (List Char))
    (acc : List (List Char × NGDetail)) (item : NGEntry) :
    List (List Char × NGDetail) :=
  (item.taisho.getD []).foldl
    (fun a w =>
      (expand_placeholders w pv).foldl
        (insertWord E catStr yotoL kanrenL kinshiL chuuiL
          (item.riyu.getD (JsonVal.flat (chars "指摘事項が設定されていません。")))
          (item.kaizen.getD (JsonVal.flat (chars "適切な表現を検討してください。")))
          (item.tekisei.getD (JsonVal.many []))
          (item.jogai.getD []))
        a)
    acc

/-- Process one subcategory: build the category label
`f"{GLOBAL_CATEGORY_NAME} > {sub_cat_name}"` and fold over its rule entries. -/
def processSubcat (E : ReEngine) (pv : List (List Char × List (List Char)))
    (acc : List (List Char × NGDetail)) (sub : SubCatData) :
    List (List Char × NGDetail) :=
  (sub.ngItems.getD []).foldl
    (processItem E pv (chars "化粧品等 > " ++ sub.name.getD [])
      (sub.yoto.getD [])
      (sub.kanren.getD [chars "該当するガイドラインはありません。"])
      (sub.kinshi.getD []) (sub.chuui.getD []))
    acc

/-- Function `extract_ng_data_from_subcategories(subcategory_data)`: fold over the groups
and their subcategories, producing the insertion-ordered NG-word dictionary. -/
def extract_ng_data_from_subcategories (E : ReEngine)
    (pv : List (List Char × List (List Char)))
    (subcategoryData : List (List Char × List SubCatData)) :
    List (List Char × NGDetail) :=
  subcategoryData.foldl (fun acc g => g.2.foldl (processSubcat E pv) acc) []

theorem foldl_preserve {α β : Type} (P : α → Prop) (f : α → β → α)
    (hf : ∀ a b, P a → P (f a b)) :
    ∀ (l : List β) (a : α), P a → P (l.foldl f a) := by
  intro l
  induction l with
  | nil => intro a ha; exact ha
  | cons b bs ih => intro a ha; exact ih (f a b) (hf a b ha)

/-- The dictionary keys stay pairwise distinct. -/
def KeysNodup (acc : List (List Char × NGDetail)) : Prop := (acc.map Prod.fst).Nodup

theorem insertWord_nodup (E : ReEngine) (catStr : List Char)
    (yotoL kanrenL kinshiL chuuiL : List (List Char))
    (riyuV kaizenV tekiseiV : JsonVal) (jogaiL : List (List Char))
    (acc : List (List Char × NGDetail)) (w : List Char) (h : KeysNodup acc) :
    KeysNodup (insertWord E catStr yotoL kanrenL kinshiL chuuiL riyuV kaizenV tekiseiV
      jogaiL acc w) := by
  unfold insertWord
  split
  · exact h
  · split
    · exact h
    · next hcon =>
      unfold KeysNodup
      rw [List.map_append]
      rw [List.nodup_append]
      refine ⟨h, List.nodup_singleton _, ?_⟩
      intro k hk hk2
      simp only [List.map_cons, List.map_nil, List.mem_singleton] at hk2
      subst hk2
      rcases List.mem_map.mp hk with ⟨kv, hkv, hfst⟩
      exact hcon (List.any_eq_true.mpr ⟨kv, hkv, by rw [hfst]; exact beq_self_eq_true _⟩)

/-- C4 (amended): the rule map built by `extract_ng_data_from_subcategories` is
keyed by the expanded phrase *alone*: its keys are pairwise distinct across all
categories, so a phrase occurring in rule entries under two different categories
yields a single RuleRecord (the first-encountered category's; see the
counterexample), not one separate record per (expandedPhrase, categoryLabel)
pair. -/
theorem C4_amended_unique_by_phrase (E : ReEngine)
    (pv : List (List Char × List (List Char)))
    (subcategoryData : List (List Char × List SubCatData)) :
    ((extract_ng_data_from_subcategories E pv subcategoryData).map Prod.fst).Nodup := by
  have step : ∀ (acc : List (List Char × NGDetail)) (g : List Char × List SubCatData),
      KeysNodup acc → KeysNodup (g.2.foldl (processSubcat E pv) acc) := by
    intro acc g hacc
    apply foldl_preserve KeysNodup (processSubcat E pv) ?_ g.2 acc hacc
    intro a sub ha
    unfold processSubcat
    apply foldl_preserve KeysNodup _ ?_ _ a ha
    intro a2 item ha2
    unfold processItem
    apply foldl_preserve KeysNodup _ ?_ _ a2 ha2
    intro a3 w ha3
    apply foldl_preserve KeysNodup _ ?_ _ a3 ha3
    intro a4 w2 ha4
    exact insertWord_nodup E _ _ _ _ _ _ _ _ _ a4 w2 ha4
  exact foldl_preserve KeysNodup _ step subcategoryData [] List.Pairwise.nil

def entryC4 : NGEntry :=
  { riyu := none, kaizen := none, tekisei := none, jogai := none,
    taisho := some [chars "w"] }

def subC4A : SubCatData :=
  { name := some (chars "A"), yoto := none, kanren := none, kinshi := none,
    chuui := none, ngItems := some [entryC4] }

def subC4B : SubCatData :=
  { name := some (chars "B"), yoto := none, kanren := none, kinshi := none,
    chuui := none, ngItems := some [entryC4] }

/-- The C4 counterexample input: the same target word `"w"` under the two
subcategories `A` and `B`. -/
def dataC4 : List (List Char × List SubCatData) := [(chars "共通", [subC4A, subC4B])]

/-- C4 counterexample: with the same phrase `"w"` in rule entries under two
different categories, the map holds exactly one record, carrying the first
category's label `化粧品等 > A` — not a separate RuleRecord per category as the
claim states (the source keys by the phrase alone: `if final_word not in
ng_words`). -/
theorem C4_counterexample :
    (extract_ng_data_from_subcategories failEngine [] dataC4).map
        (fun kv => (kv.1, kv.2.category)) =
      [(chars "w", chars "化粧品等 > A")] := by decide

def entryC9 : NGEntry :=
  { riyu := some (JsonVal.tiered (JsonVal.flat (chars "reason1")) (JsonVal.flat [])),
    kaizen := some (JsonVal.tiered (JsonVal.flat (chars "suggest1")) (JsonVal.flat [])),
    tekisei := some (JsonVal.tiered (JsonVal.many [chars "OK"]) (JsonVal.many [])),
    jogai := some [], taisho := some [chars "ワード"] }

def subC9 : SubCatData :=
  { name := some (chars "テスト"), yoto := some [chars "A"], kanren := some [],
    kinshi := some [], chuui := some [], ngItems := some [entryC9] }

/-- The C9 fixture: the repository's own `sample_subcategory` test fixture, whose
reason/suggestion/examples fields are per-regulatory-tier mappings with an empty
medicated (`薬用`) tier. -/
def dataC9 : List (List Char × List SubCatData) := [(chars "共通", [subC9])]

/-- C9 (code_bug evidence): the RuleRecord constructed for the test fixture
carries the raw per-tier mapping *unresolved*: 指摘事項 is the whole
`{"一般": "reason1", "薬用": ""}` object, not the general tier's `"reason1"` that
the repository's own test `test_extract_ng_data_from_subcategories_fallback`
asserts (the test also passes `selected_usage`/`selected_product`/
`category_type` keyword arguments that this function's signature rejects). -/
theorem C9_no_tier_fallback :
    (extract_ng_data_from_subcategories failEngine [] dataC9).map
        (fun kv => (kv.1, kv.2.shiteki, kv.2.kaizen, kv.2.tekisei)) =
      [(chars "ワード",
        JsonVal.tiered (JsonVal.flat (chars "reason1")) (JsonVal.flat []),
        JsonVal.tiered (JsonVal.flat (chars "suggest1")) (JsonVal.flat []),
        JsonVal.tiered (JsonVal.many [chars "OK"]) (JsonVal.many []))] ∧
      JsonVal.tiered (JsonVal.flat (chars "reason1")) (JsonVal.flat []) ≠
        JsonVal.flat (chars "reason1") := by
  constructor
  · decide
  · decide

end Yakkiho
